import Mathlib

/-!
Shallow embedding of the Wordle constraint tracker (`src/lib.rs`).

Strings are modelled as lists of characters; the byte positions produced by
`char_indices` coincide with list indices for the ASCII inputs the program is
written for.  The `HashMap<char, LetterInfo>` is modelled as an association
list with unique keys; the only iteration over the map (`set_other_keys`)
acts pointwise on every entry, so iteration order is irrelevant.  Every Rust
vector indexing that can panic is modelled by an `Option`: a `none` result of
`update` or `check` corresponds to a panic of the Rust code.
-/

/-- Per-position knowledge about a letter (`PresentTypes` in the source):
`No` = the letter is not at this position, `Maybe` = no information yet,
`Yes` = the letter appears at this position. -/
inductive PresentTypes where
  | No
  | Maybe
  | Yes
deriving DecidableEq, Repr

/-- Everything known about one letter (`LetterInfo` in the source): either the
letter is absent from the word, or it is present with per-position data. -/
inductive LetterInfo where
  | Absent
  | Present (v : List PresentTypes)
deriving DecidableEq, Repr

/-- Feedback symbol for one guessed letter (`GuessResult` in the source):
`No` = black square, `Yes` = green square, `Somewhere` = yellow square. -/
inductive GuessResult where
  | No
  | Yes
  | Somewhere
deriving DecidableEq, Repr

/-- `GuessResult::from_char`: `'y'` is a hit, `'m'` is present-elsewhere, and
any other character is a miss. -/
def GuessResult.from_char (c : Char) : GuessResult :=
  if c = 'y' then .Yes else if c = 'm' then .Somewhere else .No

/-- `word_to_result`: convert one feedback character per position. -/
def word_to_result (word : List Char) : List GuessResult :=
  word.map GuessResult.from_char

/-- `generate_new_vec`: a vector of `n` cells, all `Maybe` except position `p`,
which is `No` for a miss or present-elsewhere feedback and `Yes` for a hit.
The Rust indexing `r[p] = …` panics when `p ≥ n`, hence the `Option`. -/
def generate_new_vec (n p : Nat) (result : GuessResult) : Option (List PresentTypes) :=
  if p < n then
    some ((List.replicate n PresentTypes.Maybe).set p
      (match result with
        | .No => .No
        | .Somewhere => .No
        | .Yes => .Yes))
  else none

/-- The association-list model of the `HashMap<char, LetterInfo>`. -/
abbrev Info : Type := List (Char × LetterInfo)

/-- `HashMap::get`: first (unique) binding of a key. -/
def lookup : Info → Char → Option LetterInfo
  | [], _ => none
  | e :: es, c => if e.1 = c then some e.2 else lookup es c

/-- `HashMap::insert`: replace the binding of the key in place, or append a
new binding. -/
def setKey : Info → Char → LetterInfo → Info
  | [], c, x => [(c, x)]
  | e :: es, c, x => if e.1 = c then (c, x) :: es else e :: setKey es c x

/-- One step of the miss-on-present branch: a `Maybe` cell becomes `No`, a
`No` or `Yes` cell is left untouched. -/
def clear_cell : PresentTypes → PresentTypes
  | .Maybe => .No
  | x => x

/-- The in-place loop `for i in 0..num { if v[i] is Maybe { v[i] = No } }` of
the miss-on-present branch: turn the `Maybe`s among the first `num` cells into
`No`.  Reading `v[i]` panics when `num > v.length`, hence the `Option`. -/
def clear_maybes : Nat → List PresentTypes → Option (List PresentTypes)
  | 0, v => some v
  | _ + 1, [] => none
  | n + 1, x :: xs => (clear_maybes n xs).map fun ys => clear_cell x :: ys

/-- The body of `update`'s main loop for one `(position, letter, result)`
triple.  `num` is the stored word length, `wordLen` the length of the guessed
word (used by the hit-on-absent promotion, which builds a vector of length
`new_word.len()`).  The returned flag list accumulates the `(letter, position)`
pairs recorded by `change_flag`. -/
def processOne (num wordLen : Nat) (info : Info) (flags : List (Char × Nat))
    (position : Nat) (letter : Char) (result : GuessResult) :
    Option (Info × List (Char × Nat)) :=
  match lookup info letter, result with
  | none, .No => some (setKey info letter .Absent, flags)
  | none, .Somewhere =>
    (generate_new_vec num position .Somewhere).map fun v =>
      (setKey info letter (.Present v), flags)
  | none, .Yes =>
    (generate_new_vec num position .Yes).map fun v =>
      (setKey info letter (.Present v), flags ++ [(letter, position)])
  | some .Absent, .No => some (info, flags)
  | some (.Present v), .No =>
    (clear_maybes num v).map fun v2 => (setKey info letter (.Present v2), flags)
  | some .Absent, .Somewhere => some (info, flags)
  | some (.Present v), .Somewhere =>
    if position < v.length then
      some (setKey info letter (.Present (v.set position .No)), flags)
    else none
  | some .Absent, .Yes =>
    if position < wordLen then
      some (setKey info letter
          (.Present ((List.replicate wordLen PresentTypes.No).set position .Yes)),
        flags ++ [(letter, position)])
    else none
  | some (.Present v), .Yes =>
    if position < v.length then
      some (setKey info letter (.Present (v.set position .Yes)),
        flags ++ [(letter, position)])
    else none

/-- The zipped enumeration `new_word.char_indices().zip(wordle_result.iter())`,
starting at index `i`. -/
def enumZip : Nat → List Char → List GuessResult → List ((Nat × Char) × GuessResult)
  | _, [], _ => []
  | _, _, [] => []
  | i, c :: cs, r :: rs => ((i, c), r) :: enumZip (i + 1) cs rs

/-- The main loop of `update`, threading the map and the flag list. -/
def runLoop (num wordLen : Nat) :
    Info × List (Char × Nat) → List ((Nat × Char) × GuessResult) →
    Option (Info × List (Char × Nat))
  | st, [] => some st
  | st, ((p, c), r) :: rest =>
    (processOne num wordLen st.1 st.2 p c r).bind fun st2 =>
      runLoop num wordLen st2 rest

/-- Game state (`WordleGame` in the source): best-known letters per position
(`'*'` = unknown), the per-letter map, and the fixed word length. -/
structure WordleGame where
  perfect_guess_so_far : List Char
  information : Info
  num : Nat
deriving DecidableEq, Repr

/-- `WordleGame::init`: all positions unknown, empty map. -/
def WordleGame.init (num : Nat) : WordleGame :=
  { perfect_guess_so_far := List.replicate num '*'
    information := []
    num := num }

/-- Guard for one map entry of `set_other_keys`: the `v[pos]` write only
happens (and can only panic) on an entry of a different letter that holds a
`Present` vector. -/
def entry_ok (pos : Nat) (letter : Char) (e : Char × LetterInfo) : Bool :=
  e.1 = letter ||
    (match e.2 with
      | .Absent => true
      | .Present v => pos < v.length)

/-- Pointwise action of `set_other_keys` on the record of one key: the record
of `letter` itself is untouched; any other key keeps an `Absent` record and
has position `pos` ruled out in a `Present` record. -/
def sok_val (pos : Nat) (letter : Char) (key : Char) (x : LetterInfo) : LetterInfo :=
  if key = letter then x
  else
    match x with
    | .Absent => .Absent
    | .Present v => .Present (v.set pos .No)

/-- Pointwise action of `set_other_keys` on one map entry. -/
def sok_entry (pos : Nat) (letter : Char) (e : Char × LetterInfo) : Char × LetterInfo :=
  (e.1, sok_val pos letter e.1 e.2)

/-- `set_other_keys`: write `letter` into `perfect_guess_so_far[pos]` and rule
out position `pos` for every other letter with a `Present` record.  The two
Rust indexings panic when `pos` is out of range of `perfect_guess_so_far` or
of some other letter's vector, hence the `Option`. -/
def set_other_keys (st : Info × List Char) (pos : Nat) (letter : Char) :
    Option (Info × List Char) :=
  if pos < st.2.length ∧ st.1.all (entry_ok pos letter) = true then
    some (st.1.map (sok_entry pos letter), st.2.set pos letter)
  else none

/-- The final pass of `update`: apply `set_other_keys` for every recorded
`(letter, position)` flag, in order.  (When no flag was recorded the Rust
code skips the pass, which is the same as folding over the empty list.) -/
def runFlags : Info × List Char → List (Char × Nat) → Option (Info × List Char)
  | st, [] => some st
  | st, (letter, pos) :: rest =>
    (set_other_keys st pos letter).bind fun st2 => runFlags st2 rest

/-- `WordleGame::update`: absorb one scored guess.  A `none` result models a
panic of the Rust code (an out-of-bounds vector index). -/
def WordleGame.update (g : WordleGame) (new_word wordle_result : List Char) :
    Option WordleGame :=
  (runLoop g.num new_word.length (g.information, [])
      (enumZip 0 new_word (word_to_result wordle_result))).bind fun st =>
    (runFlags (st.1, g.perfect_guess_so_far) st.2).map fun q =>
      { perfect_guess_so_far := q.2
        information := q.1
        num := g.num }

/-- One constraint violation reported by `check`, mirroring the three error
messages the Rust code pushes onto its report string. -/
inductive Violation where
  | fixedMismatch (pos : Nat) (expected found : Char)
  | mustBeAbsent (pos : Nat) (letter : Char)
  | ruledOutHere (pos : Nat) (letter : Char)
deriving DecidableEq, Repr

/-- Structured outcome of `check`: `ok` models `Ok(())`, the three error
variants model the three distinguishable `Err` payloads. -/
inductive CheckResult where
  | ok
  | noInformationYet
  | lengthMismatch (expected : Nat)
  | violations (vs : List Violation)
deriving DecidableEq, Repr

/-- First validation pass of `check`: compare the candidate with the known
fixed letters, in position order. -/
def check_fixed (perfect : List Char) (word : List Char) : List Violation :=
  (perfect.zip ((List.range word.length).zip word)).filterMap fun e =>
    if e.1 ≠ '*' ∧ e.1 ≠ e.2.2 then some (.fixedMismatch e.2.1 e.1 e.2.2) else none

/-- Second validation pass of `check` for a single candidate position: the
`v[pos]` read panics when `pos` is out of range, hence the `Option`. -/
def check_letter (info : Info) (pos : Nat) (letter : Char) : Option (List Violation) :=
  match lookup info letter with
  | none => some []
  | some .Absent => some [.mustBeAbsent pos letter]
  | some (.Present v) =>
    match v[pos]? with
    | none => none
    | some .No => some [.ruledOutHere pos letter]
    | some _ => some []

/-- Second validation pass of `check` over the whole candidate, in scan
order. -/
def check_letters (info : Info) : List (Nat × Char) → Option (List Violation)
  | [] => some []
  | (pos, letter) :: rest =>
    (check_letter info pos letter).bind fun vs =>
      (check_letters info rest).map fun rest2 => vs ++ rest2

/-- `WordleGame::check`: validate a candidate guess against the accumulated
constraints.  The result is `Ok` exactly when no violation was recorded. -/
def WordleGame.check (g : WordleGame) (word : List Char) : Option CheckResult :=
  if g.information = [] then some .noInformationYet
  else if word.length ≠ g.num then some (.lengthMismatch g.num)
  else
    (check_letters g.information ((List.range word.length).zip word)).map fun vs2 =>
      match check_fixed g.perfect_guess_so_far word ++ vs2 with
      | [] => CheckResult.ok
      | vs => CheckResult.violations vs

/-!  Basic facts about the embedding. -/

theorem clear_maybes_full (v : List PresentTypes) :
    clear_maybes v.length v = some (v.map clear_cell) := by
  induction v with
  | nil => rfl
  | cons x xs ih => simp [clear_maybes, ih]

/-!  Claim C7: `check` on a freshly initialized store returns
`NoInformationYet` regardless of the candidate. -/

/-- C7: for every word length and every candidate of any content and length,
`check` on a store on which `update` has never been called (a freshly
initialized store) reports `NoInformationYet`. -/
theorem C7_theorem (n : Nat) (word : List Char) :
    (WordleGame.init n).check word = some CheckResult.noInformationYet := by
  simp [WordleGame.init, WordleGame.check]

/-!  Claim C6: a wrong-length candidate is rejected with `LengthMismatch`
alone, before either validation pass runs. -/

/-- C6: for every store in which at least one letter has been recorded and
every candidate whose length differs from the stored word length, `check`
returns the `LengthMismatch` failure naming the expected length and nothing
else — both validation passes are skipped. -/
theorem C6_theorem (g : WordleGame) (word : List Char)
    (h1 : g.information ≠ []) (h2 : word.length ≠ g.num) :
    g.check word = some (CheckResult.lengthMismatch g.num) := by
  simp [WordleGame.check, h1, h2]

/-- Witness for C6 at a concrete store and candidate. -/
theorem C6_witness :
    ((⟨['*'], [('a', LetterInfo.Absent)], 1⟩ : WordleGame).information ≠ [] ∧
        (['a', 'b'] : List Char).length ≠ (⟨['*'], [('a', LetterInfo.Absent)], 1⟩ : WordleGame).num) ∧
      (⟨['*'], [('a', LetterInfo.Absent)], 1⟩ : WordleGame).check ['a', 'b'] =
        some (CheckResult.lengthMismatch 1) :=
  ⟨⟨by decide, by decide⟩, C6_theorem _ _ (by decide) (by decide)⟩

/-!  Claim C1: what `update` does when a letter recorded `Absent` receives a
present-elsewhere (`'m'`) feedback symbol.  The source treats this case as
unreachable and does nothing (`src/lib.rs:261-263`); the record stays
`Absent`. -/

/-- C1 counterexample: running `update` on guess `"aa"` with feedback `"nm"`
puts letter `'a'` in the `Absent` state and then feeds it a present-elsewhere
symbol at position 1; the final record is still `Absent`, not the
`Present` all-`Absent` vector the claim describes. -/
theorem C1_counterexample :
    ((WordleGame.init 2).update ['a', 'a'] ['n', 'm']).map
        (fun g => lookup g.information 'a') = some (some LetterInfo.Absent) ∧
      (some (some LetterInfo.Absent) : Option (Option LetterInfo)) ≠
        some (some (LetterInfo.Present [PresentTypes.No, PresentTypes.No])) := by
  constructor
  · decide
  · decide

/-- C1 amended: when `update` processes a character whose existing record is
`Absent` and whose feedback symbol is present-elsewhere (`'m'`), it leaves the
store completely unchanged — the map entry stays `Absent` and no flag is
recorded. -/
theorem C1_theorem (num wordLen : Nat) (info : Info) (flags : List (Char × Nat))
    (position : Nat) (letter : Char)
    (h : lookup info letter = some LetterInfo.Absent) :
    processOne num wordLen info flags position letter GuessResult.Somewhere =
      some (info, flags) := by
  simp [processOne, h]

/-- Witness for the amended C1 at a concrete store. -/
theorem C1_witness :
    lookup [('a', LetterInfo.Absent)] 'a' = some LetterInfo.Absent ∧
      processOne 2 2 [('a', LetterInfo.Absent)] [] 1 'a' GuessResult.Somewhere =
        some ([('a', LetterInfo.Absent)], []) :=
  ⟨by decide, C1_theorem 2 2 _ [] 1 'a' (by decide)⟩

/-!  Claim C5: a miss on a letter with a `Present` record clears exactly the
`Possible` cells. -/

/-- C5: when `update` processes a character whose existing record is
`Present v` (of the stored word length) with a miss feedback, the record
becomes `Present (v.map clear_cell)`: every `Maybe` (possible) cell becomes
`No` (absent) and every `Yes` or `No` cell is left unchanged; nothing else in
the store moves. -/
theorem C5_theorem (num wordLen : Nat) (info : Info) (flags : List (Char × Nat))
    (position : Nat) (letter : Char) (v : List PresentTypes)
    (h1 : lookup info letter = some (LetterInfo.Present v)) (h2 : v.length = num) :
    processOne num wordLen info flags position letter GuessResult.No =
        some (setKey info letter (LetterInfo.Present (v.map clear_cell)), flags) ∧
      clear_cell PresentTypes.Maybe = PresentTypes.No ∧
      clear_cell PresentTypes.Yes = PresentTypes.Yes ∧
      clear_cell PresentTypes.No = PresentTypes.No := by
  refine ⟨?_, rfl, rfl, rfl⟩
  have hc : clear_maybes num v = some (v.map clear_cell) := by
    rw [← h2]
    exact clear_maybes_full v
  simp [processOne, h1, hc]

/-- Witness for C5 at a concrete store holding every kind of cell. -/
theorem C5_witness :
    (lookup [('a', LetterInfo.Present [PresentTypes.Maybe, PresentTypes.Yes, PresentTypes.No])] 'a' =
          some (LetterInfo.Present [PresentTypes.Maybe, PresentTypes.Yes, PresentTypes.No]) ∧
        ([PresentTypes.Maybe, PresentTypes.Yes, PresentTypes.No] : List PresentTypes).length = 3) ∧
      processOne 3 3 [('a', LetterInfo.Present [PresentTypes.Maybe, PresentTypes.Yes, PresentTypes.No])] [] 0 'a'
          GuessResult.No =
        some ([('a', LetterInfo.Present [PresentTypes.No, PresentTypes.Yes, PresentTypes.No])], []) ∧
      clear_cell PresentTypes.Maybe = PresentTypes.No ∧
      clear_cell PresentTypes.Yes = PresentTypes.Yes ∧
      clear_cell PresentTypes.No = PresentTypes.No :=
  ⟨⟨by decide, by decide⟩,
    C5_theorem 3 3 [('a', LetterInfo.Present [PresentTypes.Maybe, PresentTypes.Yes, PresentTypes.No])] [] 0 'a'
      [PresentTypes.Maybe, PresentTypes.Yes, PresentTypes.No] (by decide) (by decide)⟩

/-!  Claim C3: the worked example `initialize(4)`, `update("soda","nnyy")`,
`check("sand")`.  After the update the store is
`fixed_letters = [*, *, d, a]`, `s, o → Absent`,
`d → Present [Maybe, Maybe, Yes, No]`, `a → Present [Maybe, Maybe, No, Yes]`;
`check("sand")` therefore reports four violations, not two. -/

/-- C3 counterexample: the run produces exactly four violations — the claim's
count of two is wrong (it misses the fixed-position mismatch at position 2 and
the ruled-out letter `'d'` at position 3). -/
theorem C3_counterexample :
    ((WordleGame.init 4).update ['s', 'o', 'd', 'a'] ['n', 'n', 'y', 'y']).bind
        (fun g => g.check ['s', 'a', 'n', 'd']) =
      some (CheckResult.violations
        [Violation.fixedMismatch 2 'd' 'n', Violation.fixedMismatch 3 'a' 'd',
         Violation.mustBeAbsent 0 's', Violation.ruledOutHere 3 'd']) ∧
      ([Violation.fixedMismatch 2 'd' 'n', Violation.fixedMismatch 3 'a' 'd',
         Violation.mustBeAbsent 0 's', Violation.ruledOutHere 3 'd'] : List Violation).length ≠ 2 := by
  constructor
  · decide
  · decide

/-- C3 amended: starting from `initialize(4)` followed by
`update("soda", "nnyy")`, `check("sand")` fails with exactly four violations,
in report order: a fixed-position mismatch at position 2 (expected `'d'`,
found `'n'`), a fixed-position mismatch at position 3 (expected `'a'`, found
`'d'`), letter `'s'` recorded `Absent` at position 0, and letter `'d'` ruled
out at position 3. -/
theorem C3_theorem :
    ((WordleGame.init 4).update ['s', 'o', 'd', 'a'] ['n', 'n', 'y', 'y']).bind
        (fun g => g.check ['s', 'a', 'n', 'd']) =
      some (CheckResult.violations
        [Violation.fixedMismatch 2 'd' 'n', Violation.fixedMismatch 3 'a' 'd',
         Violation.mustBeAbsent 0 's', Violation.ruledOutHere 3 'd']) := by
  decide

/-!  Claim C4: monotonic narrowing.  The code violates both prohibitions: a
hit on a ruled-out cell rewrites it to `Yes` (`src/lib.rs:276`), and a
present-elsewhere feedback on a confirmed cell rewrites it to `No`
(`src/lib.rs:265`). -/

/-- C4 counterexample: one chain of three updates on word length 2.  After
`update("ab","mn")` the cell `(a, 0)` is `No` (absent); after a further
`update("ab","yn")` it is `Yes` — an `Absent → Confirmed` transition; after a
further `update("ab","mn")` it is `No` again — a `Confirmed → Absent`
transition.  Both transitions the claim prohibits occur. -/
theorem C4_counterexample :
    ((WordleGame.init 2).update ['a', 'b'] ['m', 'n']).map
        (fun g => lookup g.information 'a') =
      some (some (LetterInfo.Present [PresentTypes.No, PresentTypes.Maybe])) ∧
    (((WordleGame.init 2).update ['a', 'b'] ['m', 'n']).bind
        (fun g => g.update ['a', 'b'] ['y', 'n'])).map
        (fun g => lookup g.information 'a') =
      some (some (LetterInfo.Present [PresentTypes.Yes, PresentTypes.Maybe])) ∧
    ((((WordleGame.init 2).update ['a', 'b'] ['m', 'n']).bind
        (fun g => g.update ['a', 'b'] ['y', 'n'])).bind
        (fun g => g.update ['a', 'b'] ['m', 'n'])).map
        (fun g => lookup g.information 'a') =
      some (some (LetterInfo.Present [PresentTypes.No, PresentTypes.Maybe])) := by
  refine ⟨by decide, by decide, by decide⟩

/-!  Claim C10: `update` only processes the zipped prefix of guess and
feedback.  The extra feedback symbols beyond the guess are indeed ignored,
but a trailing guess character beyond the feedback still changes the state:
the hit-on-absent promotion builds its vector with `new_word.len()`
(`src/lib.rs:269`), which counts the unprocessed tail. -/

/-- C10 counterexample: on a length-3 store, guess `"tta"` with the two-symbol
feedback `"ny"` promotes `'t'` to a vector of length 3, while the same call
with the trailing `'a'` removed produces a vector of length 2 — the trailing
guess character changes the resulting state, contradicting the claim. -/
theorem C10_counterexample :
    (WordleGame.init 3).update ['t', 't', 'a'] ['n', 'y'] =
        some (⟨['*', 't', '*'],
          [('t', LetterInfo.Present [PresentTypes.No, PresentTypes.Yes, PresentTypes.No])], 3⟩ : WordleGame) ∧
      (WordleGame.init 3).update ['t', 't'] ['n', 'y'] =
        some (⟨['*', 't', '*'],
          [('t', LetterInfo.Present [PresentTypes.No, PresentTypes.Yes])], 3⟩ : WordleGame) ∧
      (WordleGame.init 3).update ['t', 't', 'a'] ['n', 'y'] ≠
        (WordleGame.init 3).update ['t', 't'] ['n', 'y'] := by
  refine ⟨by decide, by decide, by decide⟩

/-!  Association-list lemmas for the map model. -/

theorem lookup_setKey_self (info : Info) (c : Char) (x : LetterInfo) :
    lookup (setKey info c x) c = some x := by
  induction info with
  | nil => simp [setKey, lookup]
  | cons e es ih =>
    by_cases h : e.1 = c
    · simp [setKey, h, lookup]
    · simp [setKey, h, lookup, ih]

theorem lookup_setKey_ne (info : Info) (c c2 : Char) (x : LetterInfo) (h : c ≠ c2) :
    lookup (setKey info c x) c2 = lookup info c2 := by
  induction info with
  | nil => simp [setKey, lookup, h]
  | cons e es ih =>
    by_cases h2 : e.1 = c
    · simp [setKey, h2, lookup, h, ih]
    · simp [setKey, h2, lookup, ih]

theorem lookup_mem (info : Info) (c : Char) (x : LetterInfo)
    (h : lookup info c = some x) : (c, x) ∈ info := by
  induction info with
  | nil => simp [lookup] at h
  | cons e es ih =>
    by_cases h2 : e.1 = c
    · simp [lookup, h2] at h
      have : (c, x) = e := by
        rw [← h2, ← h]
      rw [this]
      exact List.mem_cons_self e es
    · simp [lookup, h2] at h
      exact List.mem_cons_of_mem _ (ih h)

theorem setKey_mem (info : Info) (c : Char) (x : LetterInfo) :
    ∀ e ∈ setKey info c x, e = (c, x) ∨ e ∈ info := by
  induction info with
  | nil => simp [setKey]
  | cons e2 es ih =>
    intro e he
    by_cases h2 : e2.1 = c
    · simp [setKey, h2] at he
      rcases he with he | he
      · exact Or.inl he
      · exact Or.inr (List.mem_cons_of_mem _ he)
    · simp [setKey, h2] at he
      rcases he with he | he
      · exact Or.inr (by simp [he])
      · rcases ih e he with h3 | h3
        · exact Or.inl h3
        · exact Or.inr (List.mem_cons_of_mem _ h3)

/-!  Well-formedness: every `Present` vector has the stored word length. -/

/-- Well-formedness of a single letter record. -/
def VWF (num : Nat) : LetterInfo → Prop
  | .Absent => True
  | .Present v => v.length = num

/-- Well-formedness of the whole map (the spec's invariant that every
`Present(cells)` vector has exactly `word_length` entries). -/
def InfoWF (num : Nat) (info : Info) : Prop := ∀ e ∈ info, VWF num e.2

theorem InfoWF_setKey (num : Nat) (info : Info) (c : Char) (x : LetterInfo)
    (hw : InfoWF num info) (hx : VWF num x) : InfoWF num (setKey info c x) := by
  intro e he
  rcases setKey_mem info c x e he with h | h
  · rw [h]
    exact hx
  · exact hw e h

theorem InfoWF_lookup (num : Nat) (info : Info) (c : Char) (x : LetterInfo)
    (hw : InfoWF num info) (h : lookup info c = some x) : VWF num x :=
  hw (c, x) (lookup_mem info c x h)

/-!  Helper facts about `List.set` and `clear_maybes`. -/

theorem set_getElem?_self {α : Type} :
    ∀ (l : List α) (i : Nat) (a : α), l[i]? = some a → l.set i a = l
  | [], _, _, h => by simp at h
  | x :: xs, 0, a, h => by
    simp at h
    simp [List.set, h]
  | x :: xs, i + 1, a, h => by
    simp at h
    simp [List.set]
    exact set_getElem?_self xs i a h

theorem clear_cell_maybe (x : PresentTypes) (h : clear_cell x = PresentTypes.Maybe) :
    x = PresentTypes.Maybe := by
  cases x <;> simp [clear_cell] at h ⊢

theorem clear_cell_of_ne (x : PresentTypes) (h : x ≠ PresentTypes.Maybe) :
    clear_cell x = x := by
  cases x <;> simp [clear_cell] at h ⊢

theorem clear_maybes_length :
    ∀ (n : Nat) (v w : List PresentTypes), clear_maybes n v = some w → w.length = v.length
  | 0, v, w, h => by
    simp [clear_maybes] at h
    rw [← h]
  | _ + 1, [], _, h => by simp [clear_maybes] at h
  | n + 1, x :: xs, w, h => by
    simp [clear_maybes] at h
    rcases h with ⟨ys, hy, hw⟩
    rw [← hw]
    simp [clear_maybes_length n xs ys hy]

theorem clear_maybes_getElem :
    ∀ (n : Nat) (v w : List PresentTypes), clear_maybes n v = some w →
      ∀ i : Nat, w[i]? = if i < n then (v[i]?).map clear_cell else v[i]?
  | 0, v, w, h => by
    simp [clear_maybes] at h
    rw [← h]
    intro i
    simp
  | _ + 1, [], _, h => by simp [clear_maybes] at h
  | n + 1, x :: xs, w, h => by
    simp [clear_maybes] at h
    rcases h with ⟨ys, hy, hw⟩
    intro i
    cases i with
    | zero => simp [← hw]
    | succ j =>
      rw [← hw]
      simp only [List.getElem?_cons_succ]
      rw [clear_maybes_getElem n xs ys hy j]
      by_cases hj : j < n
      · simp [hj, Nat.succ_lt_succ hj]
      · have : ¬(j + 1 < n + 1) := by omega
        simp [hj, this]

theorem clear_maybes_some (n : Nat) (v : List PresentTypes) (h : n ≤ v.length) :
    ∃ w, clear_maybes n v = some w := by
  induction n generalizing v with
  | zero => exact ⟨v, rfl⟩
  | succ m ih =>
    cases v with
    | nil => simp at h
    | cons x xs =>
      simp at h
      rcases ih xs (by omega) with ⟨w, hw⟩
      exact ⟨clear_cell x :: w, by simp [clear_maybes, hw]⟩

theorem clear_maybes_fix (n : Nat) (v w : List PresentTypes)
    (hm : PresentTypes.Maybe ∉ v) (h : clear_maybes n v = some w) : w = v := by
  apply List.ext_getElem?
  intro i
  rw [clear_maybes_getElem n v w h i]
  by_cases hi : i < n
  · simp only [hi, if_pos]
    cases hv : v[i]? with
    | none => rfl
    | some x =>
      have hx : x ∈ v := List.getElem?_mem hv
      have : x ≠ PresentTypes.Maybe := fun hc => hm (hc ▸ hx)
      simp [clear_cell_of_ne x this]
  · simp [hi]

/-!  Lemmas about `set_other_keys`. -/

theorem lookup_map_sok (pos : Nat) (letter : Char) (info : Info) (c : Char) :
    lookup (info.map (sok_entry pos letter)) c =
      (lookup info c).map (sok_val pos letter c) := by
  induction info with
  | nil => simp [lookup]
  | cons e es ih =>
    by_cases h : e.1 = c
    · subst h
      simp [lookup, sok_entry]
    · simp [lookup, sok_entry, h, ih]

theorem sok_inv (st : Info × List Char) (pos : Nat) (letter : Char)
    (st2 : Info × List Char) (h : set_other_keys st pos letter = some st2) :
    pos < st.2.length ∧ (∀ e ∈ st.1, entry_ok pos letter e = true) ∧
      st2 = (st.1.map (sok_entry pos letter), st.2.set pos letter) := by
  unfold set_other_keys at h
  split at h
  case isTrue hc =>
    exact ⟨hc.1, List.all_eq_true.mp hc.2, (Option.some.inj h).symm⟩
  case isFalse => simp at h

theorem sok_some (st : Info × List Char) (pos : Nat) (letter : Char)
    (h1 : pos < st.2.length) (h2 : ∀ e ∈ st.1, entry_ok pos letter e = true) :
    set_other_keys st pos letter =
      some (st.1.map (sok_entry pos letter), st.2.set pos letter) := by
  unfold set_other_keys
  rw [if_pos ⟨h1, List.all_eq_true.mpr h2⟩]

theorem entry_ok_of_wf (num pos : Nat) (letter : Char) (info : Info)
    (hw : InfoWF num info) (hp : pos < num) :
    ∀ e ∈ info, entry_ok pos letter e = true := by
  intro e he
  unfold entry_ok
  cases hx : e.2 with
  | Absent => simp
  | Present v =>
    have hv := hw e he
    rw [hx] at hv
    simp only [VWF] at hv
    simp [hv, hp]

theorem InfoWF_map_sok (num pos : Nat) (letter : Char) (info : Info)
    (hw : InfoWF num info) : InfoWF num (info.map (sok_entry pos letter)) := by
  intro e he
  simp only [List.mem_map] at he
  rcases he with ⟨e0, he0, rfl⟩
  have hv := hw e0 he0
  unfold sok_entry sok_val
  by_cases h : e0.1 = letter
  · simpa [h] using hv
  · cases hx : e0.2 with
    | Absent => simp [h, VWF]
    | Present v =>
      rw [hx] at hv
      simp only [VWF] at hv ⊢
      simp [h, hv]


/-!  Inversion of one `update`-loop step: exactly which shape the new map and
the flag list have in each of the nine `(record, feedback)` cases. -/

/-- The flags contributed by one loop step: exactly the hit feedbacks record a
`(letter, position)` pair. -/
def flagSpec (result : GuessResult) (letter : Char) (position : Nat) : List (Char × Nat) :=
  match result with
  | .Yes => [(letter, position)]
  | _ => []

/-- The shape of the map produced by one loop step, by `(record, feedback)`
case. -/
def processSpec (num wordLen : Nat) (info : Info) (position : Nat) (letter : Char)
    (result : GuessResult) (info2 : Info) : Prop :=
  match lookup info letter, result with
  | none, .No => info2 = setKey info letter .Absent
  | none, .Somewhere => position < num ∧
    info2 = setKey info letter
      (.Present ((List.replicate num PresentTypes.Maybe).set position .No))
  | none, .Yes => position < num ∧
    info2 = setKey info letter
      (.Present ((List.replicate num PresentTypes.Maybe).set position .Yes))
  | some .Absent, .No => info2 = info
  | some (.Present v), .No =>
    ∃ w, clear_maybes num v = some w ∧ info2 = setKey info letter (.Present w)
  | some .Absent, .Somewhere => info2 = info
  | some (.Present v), .Somewhere => position < v.length ∧
    info2 = setKey info letter (.Present (v.set position .No))
  | some .Absent, .Yes => position < wordLen ∧
    info2 = setKey info letter
      (.Present ((List.replicate wordLen PresentTypes.No).set position .Yes))
  | some (.Present v), .Yes => position < v.length ∧
    info2 = setKey info letter (.Present (v.set position .Yes))

theorem processOne_inv (num wordLen : Nat) (info : Info) (flags : List (Char × Nat))
    (position : Nat) (letter : Char) (result : GuessResult)
    (info2 : Info) (flags2 : List (Char × Nat))
    (h : processOne num wordLen info flags position letter result = some (info2, flags2)) :
    flags2 = flags ++ flagSpec result letter position ∧
      processSpec num wordLen info position letter result info2 := by
  unfold processOne at h
  unfold processSpec flagSpec
  cases hl : lookup info letter with
  | none =>
    rw [hl] at h
    cases result <;> dsimp only at h ⊢
    case No =>
      simp only [Option.some.injEq, Prod.mk.injEq] at h
      simp [← h.1, ← h.2]
    case Somewhere =>
      by_cases hp : position < num
      · simp only [generate_new_vec, if_pos hp, Option.map_some', Option.some.injEq,
          Prod.mk.injEq] at h
        simp [← h.1, ← h.2, hp]
      · simp [generate_new_vec, if_neg hp] at h
    case Yes =>
      by_cases hp : position < num
      · simp only [generate_new_vec, if_pos hp, Option.map_some', Option.some.injEq,
          Prod.mk.injEq] at h
        simp [← h.1, ← h.2, hp]
      · simp [generate_new_vec, if_neg hp] at h
  | some li =>
    rw [hl] at h
    cases li with
    | Absent =>
      cases result <;> dsimp only at h ⊢
      case No =>
        simp only [Option.some.injEq, Prod.mk.injEq] at h
        simp [← h.1, ← h.2]
      case Somewhere =>
        simp only [Option.some.injEq, Prod.mk.injEq] at h
        simp [← h.1, ← h.2]
      case Yes =>
        by_cases hp : position < wordLen
        · simp only [if_pos hp, Option.some.injEq, Prod.mk.injEq] at h
          simp [← h.1, ← h.2, hp]
        · simp [if_neg hp] at h
    | Present v =>
      cases result <;> dsimp only at h ⊢
      case No =>
        cases hc : clear_maybes num v with
        | none => rw [hc] at h; simp at h
        | some w =>
          rw [hc] at h
          simp only [Option.map_some', Option.some.injEq, Prod.mk.injEq] at h
          exact ⟨by simp [← h.2], w, rfl, h.1.symm⟩
      case Somewhere =>
        by_cases hp : position < v.length
        · simp only [if_pos hp, Option.some.injEq, Prod.mk.injEq] at h
          simp [← h.1, ← h.2, hp]
        · simp [if_neg hp] at h
      case Yes =>
        by_cases hp : position < v.length
        · simp only [if_pos hp, Option.some.injEq, Prod.mk.injEq] at h
          simp [← h.1, ← h.2, hp]
        · simp [if_neg hp] at h

/-!  Consequences of the step inversion. -/

theorem processSpec_other (num wordLen : Nat) (info : Info) (position : Nat)
    (letter : Char) (result : GuessResult) (info2 : Info)
    (h : processSpec num wordLen info position letter result info2) :
    ∀ c, c ≠ letter → lookup info2 c = lookup info c := by
  intro c hc
  unfold processSpec at h
  cases hl : lookup info letter with
  | none =>
    rw [hl] at h
    cases result <;> dsimp only at h
    case No => rw [h]; exact lookup_setKey_ne _ _ _ _ (Ne.symm hc)
    case Somewhere => rw [h.2]; exact lookup_setKey_ne _ _ _ _ (Ne.symm hc)
    case Yes => rw [h.2]; exact lookup_setKey_ne _ _ _ _ (Ne.symm hc)
  | some li =>
    rw [hl] at h
    cases li with
    | Absent =>
      cases result <;> dsimp only at h
      case No => rw [h]
      case Somewhere => rw [h]
      case Yes => rw [h.2]; exact lookup_setKey_ne _ _ _ _ (Ne.symm hc)
    | Present v =>
      cases result <;> dsimp only at h
      case No =>
        rcases h with ⟨w, _, h2⟩
        rw [h2]
        exact lookup_setKey_ne _ _ _ _ (Ne.symm hc)
      case Somewhere => rw [h.2]; exact lookup_setKey_ne _ _ _ _ (Ne.symm hc)
      case Yes => rw [h.2]; exact lookup_setKey_ne _ _ _ _ (Ne.symm hc)

theorem processSpec_mono (num wordLen : Nat) (info : Info) (position : Nat)
    (letter : Char) (result : GuessResult) (info2 : Info)
    (h : processSpec num wordLen info position letter result info2) :
    ∀ c v, lookup info c = some (LetterInfo.Present v) →
      ∃ v2, lookup info2 c = some (LetterInfo.Present v2) ∧ v2.length = v.length ∧
        ∀ i : Nat, v2[i]? = some PresentTypes.Maybe → v[i]? = some PresentTypes.Maybe := by
  intro c v hv
  by_cases hc : c = letter
  · subst hc
    unfold processSpec at h
    rw [hv] at h
    cases result with
    | No =>
      rcases h with ⟨w, hw, h2⟩
      refine ⟨w, by rw [h2]; exact lookup_setKey_self _ _ _,
        clear_maybes_length _ _ _ hw, ?_⟩
      intro i hi
      rw [clear_maybes_getElem _ _ _ hw i] at hi
      by_cases hin : i < num
      · rw [if_pos hin] at hi
        rcases Option.map_eq_some'.mp hi with ⟨x, hx1, hx2⟩
        rw [hx1, clear_cell_maybe x hx2]
      · rwa [if_neg hin] at hi
    | Somewhere =>
      refine ⟨v.set position .No, by rw [h.2]; exact lookup_setKey_self _ _ _,
        List.length_set _ _ _, ?_⟩
      intro i hi
      by_cases hip : position = i
      · subst hip
        rw [List.getElem?_set_eq_of_lt _ h.1] at hi
        simp at hi
      · rwa [List.getElem?_set_ne hip] at hi
    | Yes =>
      refine ⟨v.set position .Yes, by rw [h.2]; exact lookup_setKey_self _ _ _,
        List.length_set _ _ _, ?_⟩
      intro i hi
      by_cases hip : position = i
      · subst hip
        rw [List.getElem?_set_eq_of_lt _ h.1] at hi
        simp at hi
      · rwa [List.getElem?_set_ne hip] at hi
  · refine ⟨v, ?_, rfl, fun i hi => hi⟩
    rw [processSpec_other num wordLen info position letter result info2 h c hc]
    exact hv

theorem processSpec_wf (num : Nat) (info : Info) (position : Nat)
    (letter : Char) (result : GuessResult) (info2 : Info)
    (h : processSpec num num info position letter result info2)
    (hw : InfoWF num info) : InfoWF num info2 := by
  unfold processSpec at h
  cases hl : lookup info letter with
  | none =>
    rw [hl] at h
    cases result <;> dsimp only at h
    case No => rw [h]; exact InfoWF_setKey _ _ _ _ hw trivial
    case Somewhere =>
      rw [h.2]
      exact InfoWF_setKey _ _ _ _ hw (by simp [VWF])
    case Yes =>
      rw [h.2]
      exact InfoWF_setKey _ _ _ _ hw (by simp [VWF])
  | some li =>
    rw [hl] at h
    cases li with
    | Absent =>
      cases result <;> dsimp only at h
      case No => rw [h]; exact hw
      case Somewhere => rw [h]; exact hw
      case Yes =>
        rw [h.2]
        exact InfoWF_setKey _ _ _ _ hw (by simp [VWF])
    | Present v =>
      have hv : v.length = num := InfoWF_lookup num info letter _ hw hl
      cases result <;> dsimp only at h
      case No =>
        rcases h with ⟨w, hw2, h2⟩
        rw [h2]
        apply InfoWF_setKey _ _ _ _ hw
        show w.length = num
        rw [clear_maybes_length _ _ _ hw2, hv]
      case Somewhere =>
        rw [h.2]
        apply InfoWF_setKey _ _ _ _ hw
        show (v.set position PresentTypes.No).length = num
        rw [List.length_set, hv]
      case Yes =>
        rw [h.2]
        apply InfoWF_setKey _ _ _ _ hw
        show (v.set position PresentTypes.Yes).length = num
        rw [List.length_set, hv]

theorem processOne_wf_some (num : Nat) (info : Info) (flags : List (Char × Nat))
    (position : Nat) (letter : Char) (result : GuessResult)
    (hw : InfoWF num info) (hp : position < num) :
    ∃ info2, processOne num num info flags position letter result =
      some (info2, flags ++ flagSpec result letter position) := by
  unfold processOne flagSpec
  cases hl : lookup info letter with
  | none =>
    cases result <;> dsimp only
    case No => exact ⟨setKey info letter .Absent, by simp⟩
    case Somewhere =>
      refine ⟨setKey info letter
        (.Present ((List.replicate num PresentTypes.Maybe).set position .No)), ?_⟩
      simp [generate_new_vec, hp]
    case Yes =>
      refine ⟨setKey info letter
        (.Present ((List.replicate num PresentTypes.Maybe).set position .Yes)), ?_⟩
      simp [generate_new_vec, hp]
  | some li =>
    cases li with
    | Absent =>
      cases result <;> dsimp only
      case No => exact ⟨info, by simp⟩
      case Somewhere => exact ⟨info, by simp⟩
      case Yes =>
        refine ⟨setKey info letter
          (.Present ((List.replicate num PresentTypes.No).set position .Yes)), ?_⟩
        simp [hp]
    | Present v =>
      have hv : v.length = num := InfoWF_lookup num info letter _ hw hl
      cases result <;> dsimp only
      case No =>
        rcases clear_maybes_some num v (by rw [hv]) with ⟨w, hc⟩
        exact ⟨setKey info letter (.Present w), by simp [hc]⟩
      case Somewhere =>
        refine ⟨setKey info letter (.Present (v.set position .No)), ?_⟩
        rw [hv] at *
        simp [hp, hv]
      case Yes =>
        refine ⟨setKey info letter (.Present (v.set position .Yes)), ?_⟩
        rw [hv] at *
        simp [hp, hv]

/-!  The enumerated zip and the flag list produced by the whole loop. -/

/-- The flags the loop records: one `(letter, position)` pair per hit, in
guess order. -/
def yesFlags (pairs : List ((Nat × Char) × GuessResult)) : List (Char × Nat) :=
  pairs.filterMap fun x =>
    match x.2 with
    | .Yes => some (x.1.2, x.1.1)
    | _ => none

theorem yesFlags_nil : yesFlags [] = [] := rfl

theorem yesFlags_cons (p : Nat) (c : Char) (r : GuessResult)
    (pairs : List ((Nat × Char) × GuessResult)) :
    yesFlags (((p, c), r) :: pairs) = flagSpec r c p ++ yesFlags pairs := by
  cases r <;> simp [yesFlags, flagSpec, List.filterMap_cons]

theorem enumZip_mem_pos :
    ∀ (i : Nat) (w : List Char) (rs : List GuessResult)
      (x : (Nat × Char) × GuessResult), x ∈ enumZip i w rs →
      i ≤ x.1.1 ∧ x.1.1 < i + w.length
  | _, [], _, _, hx => by simp [enumZip] at hx
  | _, _ :: _, [], _, hx => by simp [enumZip] at hx
  | i, c :: cs, r :: rs, x, hx => by
    simp only [enumZip, List.mem_cons] at hx
    rcases hx with hx | hx
    · subst hx
      simp
    · have := enumZip_mem_pos (i + 1) cs rs x hx
      constructor
      · omega
      · simp only [List.length_cons]
        omega

theorem enumZip_getElem :
    ∀ (i p : Nat) (w : List Char) (rs : List GuessResult) (c : Char) (res : GuessResult),
      w[p]? = some c → rs[p]? = some res → ((i + p, c), res) ∈ enumZip i w rs
  | _, _, [], _, _, _, hw, _ => by simp at hw
  | _, _, _ :: _, [], _, _, _, hr => by simp at hr
  | i, 0, c0 :: cs, r0 :: rs, c, res, hw, hr => by
    simp at hw hr
    simp [enumZip, hw, hr]
  | i, p + 1, c0 :: cs, r0 :: rs, c, res, hw, hr => by
    simp only [List.getElem?_cons_succ] at hw hr
    have := enumZip_getElem (i + 1) p cs rs c res hw hr
    have harith : i + 1 + p = i + (p + 1) := by omega
    rw [harith] at this
    simp [enumZip, this]

theorem yesFlags_mem (pairs : List ((Nat × Char) × GuessResult)) (f : Char × Nat)
    (hf : f ∈ yesFlags pairs) : ((f.2, f.1), GuessResult.Yes) ∈ pairs := by
  unfold yesFlags at hf
  rcases List.mem_filterMap.mp hf with ⟨x, hx, hfx⟩
  rcases x with ⟨⟨xp, xc⟩, xr⟩
  cases xr with
  | Yes =>
    have hfx2 : (xc, xp) = f := Option.some.inj hfx
    subst hfx2
    exact hx
  | No => exact Option.noConfusion hfx
  | Somewhere => exact Option.noConfusion hfx

theorem yesFlags_mem_of (pairs : List ((Nat × Char) × GuessResult)) (p : Nat) (c : Char)
    (hf : ((p, c), GuessResult.Yes) ∈ pairs) : (c, p) ∈ yesFlags pairs := by
  unfold yesFlags
  exact List.mem_filterMap.mpr ⟨((p, c), GuessResult.Yes), hf, rfl⟩

theorem yesFlags_enumZip_sorted :
    ∀ (i : Nat) (w : List Char) (rs : List GuessResult),
      (yesFlags (enumZip i w rs)).Pairwise fun a b => a.2 < b.2
  | _, [], _ => by simp [enumZip, yesFlags]
  | _, _ :: _, [] => by simp [enumZip, yesFlags]
  | i, c :: cs, r :: rs => by
    have htail := yesFlags_enumZip_sorted (i + 1) cs rs
    have hpos : ∀ f ∈ yesFlags (enumZip (i + 1) cs rs), i < f.2 := by
      intro f hf
      have := enumZip_mem_pos (i + 1) cs rs _ (yesFlags_mem _ f hf)
      simp at this
      omega
    show (yesFlags (((i, c), r) :: enumZip (i + 1) cs rs)).Pairwise fun a b => a.2 < b.2
    rw [yesFlags_cons]
    cases r with
    | Yes =>
      simp only [flagSpec, List.singleton_append]
      exact List.Pairwise.cons (fun f hf => hpos f hf) htail
    | No => simpa [flagSpec]
    | Somewhere => simpa [flagSpec]

/-!  Loop-level lemmas. -/

theorem runLoop_flags (num wordLen : Nat) :
    ∀ (pairs : List ((Nat × Char) × GuessResult)) (st st2 : Info × List (Char × Nat)),
      runLoop num wordLen st pairs = some st2 → st2.2 = st.2 ++ yesFlags pairs
  | [], st, st2, h => by
    simp only [runLoop, Option.some.injEq] at h
    rw [← h, yesFlags_nil, List.append_nil]
  | ((p, c), r) :: rest, st, st2, h => by
    simp only [runLoop] at h
    rcases Option.bind_eq_some.mp h with ⟨stA, hA, hrest⟩
    rcases stA with ⟨infoA, flagsA⟩
    have hinv := processOne_inv num wordLen st.1 st.2 p c r infoA flagsA hA
    have := runLoop_flags num wordLen rest (infoA, flagsA) st2 hrest
    rw [this, yesFlags_cons]
    simp only
    rw [hinv.1, List.append_assoc]

theorem runLoop_mono (num wordLen : Nat) :
    ∀ (pairs : List ((Nat × Char) × GuessResult)) (st st2 : Info × List (Char × Nat)),
      runLoop num wordLen st pairs = some st2 →
      ∀ c v, lookup st.1 c = some (LetterInfo.Present v) →
        ∃ v2, lookup st2.1 c = some (LetterInfo.Present v2) ∧ v2.length = v.length ∧
          ∀ i : Nat, v2[i]? = some PresentTypes.Maybe → v[i]? = some PresentTypes.Maybe
  | [], st, st2, h => by
    simp only [runLoop, Option.some.injEq] at h
    rw [← h]
    exact fun c v hv => ⟨v, hv, rfl, fun i hi => hi⟩
  | ((p, c0), r) :: rest, st, st2, h => by
    simp only [runLoop] at h
    rcases Option.bind_eq_some.mp h with ⟨stA, hA, hrest⟩
    rcases stA with ⟨infoA, flagsA⟩
    intro c v hv
    have hinv := processOne_inv num wordLen st.1 st.2 p c0 r infoA flagsA hA
    rcases processSpec_mono num wordLen st.1 p c0 r infoA hinv.2 c v hv with
      ⟨vA, hvA, hlenA, hmonoA⟩
    rcases runLoop_mono num wordLen rest (infoA, flagsA) st2 hrest c vA hvA with
      ⟨v2, hv2, hlen2, hmono2⟩
    exact ⟨v2, hv2, by rw [hlen2, hlenA], fun i hi => hmonoA i (hmono2 i hi)⟩

theorem runLoop_wf_some (num : Nat) :
    ∀ (pairs : List ((Nat × Char) × GuessResult)) (st : Info × List (Char × Nat)),
      InfoWF num st.1 → (∀ x ∈ pairs, x.1.1 < num) →
      ∃ info2, runLoop num num st pairs = some (info2, st.2 ++ yesFlags pairs) ∧
        InfoWF num info2
  | [], st, hw, _ => ⟨st.1, by simp [runLoop, yesFlags_nil], hw⟩
  | ((p, c), r) :: rest, st, hw, hpos => by
    have hp : p < num := hpos ((p, c), r) (List.mem_cons_self _ _)
    rcases processOne_wf_some num st.1 st.2 p c r hw hp with ⟨infoA, hA⟩
    have hwfA : InfoWF num infoA :=
      processSpec_wf num st.1 p c r infoA
        (processOne_inv num num st.1 st.2 p c r infoA _ hA).2 hw
    rcases runLoop_wf_some num rest (infoA, st.2 ++ flagSpec r c p) hwfA
        (fun x hx => hpos x (List.mem_cons_of_mem _ hx)) with ⟨info2, h2, hwf2⟩
    refine ⟨info2, ?_, hwf2⟩
    simp only [runLoop, hA, Option.some_bind]
    rw [h2, yesFlags_cons]
    simp [List.append_assoc]

/-!  Lemmas about the final mutual-exclusion pass. -/

theorem sok_mono (st : Info × List Char) (pos : Nat) (letter : Char)
    (st2 : Info × List Char) (h : set_other_keys st pos letter = some st2) :
    ∀ c v, lookup st.1 c = some (LetterInfo.Present v) →
      ∃ v2, lookup st2.1 c = some (LetterInfo.Present v2) ∧ v2.length = v.length ∧
        ∀ i : Nat, v2[i]? = some PresentTypes.Maybe → v[i]? = some PresentTypes.Maybe := by
  intro c v hv
  rcases sok_inv st pos letter st2 h with ⟨_, _, hst2⟩
  rw [hst2]
  simp only [lookup_map_sok, hv, Option.map_some']
  unfold sok_val
  by_cases hc : c = letter
  · rw [if_pos hc]
    exact ⟨v, rfl, rfl, fun i hi => hi⟩
  · rw [if_neg hc]
    refine ⟨v.set pos .No, rfl, List.length_set _ _ _, ?_⟩
    intro i hi
    by_cases hip : pos = i
    · subst hip
      by_cases hlt : pos < v.length
      · rw [List.getElem?_set_eq_of_lt _ hlt] at hi
        simp at hi
      · rw [List.set_eq_of_length_le (by omega)] at hi
        exact hi
    · rwa [List.getElem?_set_ne hip] at hi

theorem runFlags_mono :
    ∀ (fl : List (Char × Nat)) (st st2 : Info × List Char),
      runFlags st fl = some st2 →
      ∀ c v, lookup st.1 c = some (LetterInfo.Present v) →
        ∃ v2, lookup st2.1 c = some (LetterInfo.Present v2) ∧ v2.length = v.length ∧
          ∀ i : Nat, v2[i]? = some PresentTypes.Maybe → v[i]? = some PresentTypes.Maybe
  | [], st, st2, h => by
    simp only [runFlags, Option.some.injEq] at h
    rw [← h]
    exact fun c v hv => ⟨v, hv, rfl, fun i hi => hi⟩
  | (letter, pos) :: rest, st, st2, h => by
    simp only [runFlags] at h
    rcases Option.bind_eq_some.mp h with ⟨stA, hA, hrest⟩
    intro c v hv
    rcases sok_mono st pos letter stA hA c v hv with ⟨vA, hvA, hlenA, hmonoA⟩
    rcases runFlags_mono rest stA st2 hrest c vA hvA with ⟨v2, hv2, hlen2, hmono2⟩
    exact ⟨v2, hv2, by rw [hlen2, hlenA], fun i hi => hmonoA i (hmono2 i hi)⟩

theorem runFlags_wf_some (num : Nat) :
    ∀ (fl : List (Char × Nat)) (st : Info × List Char),
      InfoWF num st.1 → st.2.length = num → (∀ x ∈ fl, x.2 < num) →
      ∃ st2, runFlags st fl = some st2 ∧ InfoWF num st2.1 ∧ st2.2.length = num
  | [], st, hw, hlen, _ => ⟨st, by simp [runFlags], hw, hlen⟩
  | (letter, pos) :: rest, st, hw, hlen, hpos => by
    have hp : pos < num := hpos (letter, pos) (List.mem_cons_self _ _)
    have hA := sok_some st pos letter (by rw [hlen]; exact hp)
      (entry_ok_of_wf num pos letter st.1 hw hp)
    have hwfA : InfoWF num (st.1.map (sok_entry pos letter)) :=
      InfoWF_map_sok num pos letter st.1 hw
    rcases runFlags_wf_some num rest (st.1.map (sok_entry pos letter), st.2.set pos letter)
        hwfA (by simp [hlen]) (fun x hx => hpos x (List.mem_cons_of_mem _ hx)) with
      ⟨st2, h2, hwf2, hlen2⟩
    exact ⟨st2, by simp only [runFlags, hA, Option.some_bind]; exact h2, hwf2, hlen2⟩

theorem runFlags_append :
    ∀ (l1 l2 : List (Char × Nat)) (st : Info × List Char),
      runFlags st (l1 ++ l2) =
        (runFlags st l1).bind fun stA => runFlags stA l2
  | [], l2, st => by simp [runFlags]
  | (letter, pos) :: rest, l2, st => by
    simp only [List.cons_append, runFlags]
    cases set_other_keys st pos letter with
    | none => simp
    | some stA => simp [runFlags_append rest l2 stA]

/-!  The mutual-exclusion property at one position, and how the final pass
establishes and preserves it. -/

/-- Position `p` is fixed to letter `L` and excluded for every other letter
with a `Present` record. -/
def ExclAt (p : Nat) (L : Char) (st : Info × List Char) : Prop :=
  st.2[p]? = some L ∧
    ∀ c, c ≠ L → ∀ v, lookup st.1 c = some (LetterInfo.Present v) →
      v[p]? = some PresentTypes.No

theorem sok_establish (st : Info × List Char) (p : Nat) (L : Char)
    (st2 : Info × List Char) (h : set_other_keys st p L = some st2) :
    ExclAt p L st2 := by
  rcases sok_inv st p L st2 h with ⟨hlen, hok, hst2⟩
  rw [hst2]
  constructor
  · exact List.getElem?_set_eq_of_lt L hlen
  · intro c hc v hv
    rw [lookup_map_sok] at hv
    rcases Option.map_eq_some'.mp hv with ⟨x, hx, hvx⟩
    unfold sok_val at hvx
    rw [if_neg hc] at hvx
    cases x with
    | Absent => exact LetterInfo.noConfusion hvx
    | Present v0 =>
      have hv0 : p < v0.length := by
        have := hok (c, .Present v0) (lookup_mem st.1 c _ hx)
        unfold entry_ok at this
        simp [hc] at this
        exact this
      have : v = v0.set p PresentTypes.No := (LetterInfo.Present.inj hvx).symm
      rw [this]
      exact List.getElem?_set_eq_of_lt _ hv0

theorem sok_preserve (st : Info × List Char) (q : Nat) (L2 : Char)
    (st2 : Info × List Char) (h : set_other_keys st q L2 = some st2)
    (p : Nat) (L : Char) (hne : q ≠ p) (hE : ExclAt p L st) : ExclAt p L st2 := by
  rcases sok_inv st q L2 st2 h with ⟨_, _, hst2⟩
  rw [hst2]
  constructor
  · rw [List.getElem?_set_ne hne]
    exact hE.1
  · intro c hc v hv
    rw [lookup_map_sok] at hv
    rcases Option.map_eq_some'.mp hv with ⟨x, hx, hvx⟩
    unfold sok_val at hvx
    by_cases hcL : c = L2
    · rw [if_pos hcL] at hvx
      rw [hvx] at hx
      exact hE.2 c hc v hx
    · rw [if_neg hcL] at hvx
      cases x with
      | Absent => exact LetterInfo.noConfusion hvx
      | Present v0 =>
        have : v = v0.set q PresentTypes.No := (LetterInfo.Present.inj hvx).symm
        rw [this, List.getElem?_set_ne hne]
        exact hE.2 c hc v0 hx

theorem runFlags_preserve (p : Nat) (L : Char) :
    ∀ (fl : List (Char × Nat)) (st st2 : Info × List Char),
      runFlags st fl = some st2 → (∀ x ∈ fl, x.2 ≠ p) → ExclAt p L st → ExclAt p L st2
  | [], st, st2, h, _, hE => by
    simp only [runFlags, Option.some.injEq] at h
    rw [← h]
    exact hE
  | (letter, pos) :: rest, st, st2, h, hne, hE => by
    simp only [runFlags] at h
    rcases Option.bind_eq_some.mp h with ⟨stA, hA, hrest⟩
    have hq : pos ≠ p := hne (letter, pos) (List.mem_cons_self _ _)
    exact runFlags_preserve p L rest stA st2 hrest
      (fun x hx => hne x (List.mem_cons_of_mem _ hx))
      (sok_preserve st pos letter stA hA p L hq hE)

theorem runFlags_establish (p : Nat) (L : Char) (f2 : List (Char × Nat))
    (st st2 : Info × List Char) (h : runFlags st ((L, p) :: f2) = some st2)
    (hne : ∀ x ∈ f2, x.2 ≠ p) : ExclAt p L st2 := by
  simp only [runFlags] at h
  rcases Option.bind_eq_some.mp h with ⟨stA, hA, hrest⟩
  exact runFlags_preserve p L f2 stA st2 hrest hne (sok_establish st p L stA hA)

/-!  Claim C2: mutual exclusion after a hit. -/

theorem update_excl (g : WordleGame) (w r : List Char) (g2 : WordleGame) (p : Nat) (L : Char)
    (hu : g.update w r = some g2) (hw : w[p]? = some L)
    (hr : (word_to_result r)[p]? = some GuessResult.Yes) :
    g2.perfect_guess_so_far[p]? = some L ∧
      ∀ c, c ≠ L → ∀ v, lookup g2.information c = some (LetterInfo.Present v) →
        v[p]? = some PresentTypes.No := by
  unfold WordleGame.update at hu
  rcases Option.bind_eq_some.mp hu with ⟨st, hst, h2⟩
  rcases Option.map_eq_some'.mp h2 with ⟨q, hq, hg2⟩
  have hfl : st.2 = [] ++ yesFlags (enumZip 0 w (word_to_result r)) :=
    runLoop_flags g.num w.length _ (g.information, []) st hst
  rw [List.nil_append] at hfl
  have hmem : ((p, L), GuessResult.Yes) ∈ enumZip 0 w (word_to_result r) := by
    have := enumZip_getElem 0 p w (word_to_result r) L GuessResult.Yes hw hr
    simpa using this
  have hmem2 : (L, p) ∈ st.2 := by
    rw [hfl]
    exact yesFlags_mem_of _ p L hmem
  have hsorted : st.2.Pairwise fun a b => a.2 < b.2 := by
    rw [hfl]
    exact yesFlags_enumZip_sorted 0 w (word_to_result r)
  rcases List.append_of_mem hmem2 with ⟨f1, f2, hsplit⟩
  have hf2 : ∀ x ∈ f2, x.2 ≠ p := by
    rw [hsplit] at hsorted
    have hp2 := (List.pairwise_append.mp hsorted).2.1
    have h3 := (List.pairwise_cons.mp hp2).1
    intro x hx
    have := h3 x hx
    omega
  rw [hsplit, runFlags_append] at hq
  rcases Option.bind_eq_some.mp hq with ⟨stM, _, hM2⟩
  have hE : ExclAt p L q := runFlags_establish p L f2 stM q hM2 hf2
  rw [← hg2]
  exact ⟨hE.1, hE.2⟩

/-- C2: after any call to `update` whose feedback contains a hit (`'y'`) for
letter `L` at position `p`, the fixed letter at `p` is `L` and every other
letter with a `Present` record has position `p` ruled out.  (The
mutual-exclusion pass runs after all per-position merges, so this holds for
every hit of the round simultaneously.) -/
theorem C2_theorem (g : WordleGame) (w r : List Char) (g2 : WordleGame) (p : Nat) (L : Char)
    (hu : g.update w r = some g2) (hw : w[p]? = some L)
    (hr : (word_to_result r)[p]? = some GuessResult.Yes) :
    g2.perfect_guess_so_far[p]? = some L ∧
      ∀ c, c ≠ L → ∀ v, lookup g2.information c = some (LetterInfo.Present v) →
        v[p]? = some PresentTypes.No :=
  update_excl g w r g2 p L hu hw hr

/-- Witness for C2: `update("ab", "yn")` on a fresh length-2 store. -/
theorem C2_witness :
    ((WordleGame.init 2).update ['a', 'b'] ['y', 'n'] =
        some (⟨['a', '*'],
          [('a', LetterInfo.Present [PresentTypes.Yes, PresentTypes.Maybe]),
           ('b', LetterInfo.Absent)], 2⟩ : WordleGame) ∧
      (['a', 'b'] : List Char)[0]? = some 'a' ∧
      (word_to_result ['y', 'n'])[0]? = some GuessResult.Yes) ∧
    ((⟨['a', '*'],
        [('a', LetterInfo.Present [PresentTypes.Yes, PresentTypes.Maybe]),
         ('b', LetterInfo.Absent)], 2⟩ : WordleGame).perfect_guess_so_far[0]? = some 'a' ∧
      ∀ c, c ≠ 'a' → ∀ v,
        lookup (⟨['a', '*'],
          [('a', LetterInfo.Present [PresentTypes.Yes, PresentTypes.Maybe]),
           ('b', LetterInfo.Absent)], 2⟩ : WordleGame).information c =
            some (LetterInfo.Present v) →
          v[0]? = some PresentTypes.No) :=
  ⟨⟨by decide, by decide, by decide⟩,
    C2_theorem (WordleGame.init 2) ['a', 'b'] ['y', 'n'] _ 0 'a'
      (by decide) (by decide) (by decide)⟩

/-!  Claim C9: with a guess and feedback in lockstep with the stored word
length, `update` cannot fail — every vector index stays in bounds, so the
embedded `update` returns `some`. -/

/-- C9: for every well-formed store and every guess and feedback of exactly
the stored word length, `update` completes without failure (no out-of-bounds
index, modelled by a `some` result). -/
theorem C9_theorem (g : WordleGame) (w r : List Char)
    (hwf : InfoWF g.num g.information)
    (hperf : g.perfect_guess_so_far.length = g.num)
    (hlw : w.length = g.num) (hlr : r.length = g.num) :
    ∃ g2, g.update w r = some g2 := by
  unfold WordleGame.update
  have hpos : ∀ x ∈ enumZip 0 w (word_to_result r), x.1.1 < g.num := by
    intro x hx
    have := enumZip_mem_pos 0 w (word_to_result r) x hx
    omega
  rw [hlw]
  rcases runLoop_wf_some g.num (enumZip 0 w (word_to_result r)) (g.information, [])
      hwf hpos with ⟨info2, hloop, hwf2⟩
  have hflpos : ∀ x ∈ ((g.information, ([] : List (Char × Nat))).2 ++
      yesFlags (enumZip 0 w (word_to_result r))), x.2 < g.num := by
    intro x hx
    simp only [List.nil_append] at hx
    have hm := yesFlags_mem _ x hx
    have := enumZip_mem_pos 0 w (word_to_result r) _ hm
    simp at this
    omega
  rcases runFlags_wf_some g.num _ (info2, g.perfect_guess_so_far) hwf2 hperf hflpos with
    ⟨st2, hfl, _, _⟩
  refine ⟨⟨st2.2, st2.1, g.num⟩, ?_⟩
  rw [hloop]
  simp only [Option.some_bind]
  rw [hfl]
  simp

/-- Witness for C9 on the worked example store. -/
theorem C9_witness :
    (InfoWF (WordleGame.init 4).num (WordleGame.init 4).information ∧
      (WordleGame.init 4).perfect_guess_so_far.length = (WordleGame.init 4).num ∧
      (['s', 'o', 'd', 'a'] : List Char).length = (WordleGame.init 4).num ∧
      (['n', 'n', 'y', 'y'] : List Char).length = (WordleGame.init 4).num) ∧
    ∃ g2, (WordleGame.init 4).update ['s', 'o', 'd', 'a'] ['n', 'n', 'y', 'y'] = some g2 :=
  ⟨⟨fun e he => absurd he (List.not_mem_nil e), by decide, by decide, by decide⟩,
    C9_theorem (WordleGame.init 4) ['s', 'o', 'd', 'a'] ['n', 'n', 'y', 'y']
      (fun e he => absurd he (List.not_mem_nil e)) (by decide) (by decide) (by decide)⟩

/-!  Claim C4 (amended): across any sequence of updates, an existing `Present`
cell never becomes `Possible` again. -/

/-- A sequence of `update` calls, failing as soon as one call fails. -/
def updateSeq (g : WordleGame) : List (List Char × List Char) → Option WordleGame
  | [] => some g
  | (w, r) :: rest => (g.update w r).bind fun g2 => updateSeq g2 rest

theorem update_mono (g : WordleGame) (w r : List Char) (g2 : WordleGame)
    (h : g.update w r = some g2) :
    ∀ c v, lookup g.information c = some (LetterInfo.Present v) →
      ∃ v2, lookup g2.information c = some (LetterInfo.Present v2) ∧
        v2.length = v.length ∧
        ∀ i : Nat, v2[i]? = some PresentTypes.Maybe → v[i]? = some PresentTypes.Maybe := by
  unfold WordleGame.update at h
  rcases Option.bind_eq_some.mp h with ⟨st, hst, h2⟩
  rcases Option.map_eq_some'.mp h2 with ⟨q, hq, hg2⟩
  intro c v hv
  rcases runLoop_mono g.num w.length _ (g.information, []) st hst c v hv with
    ⟨vA, hvA, hlenA, hmonoA⟩
  rcases runFlags_mono st.2 (st.1, g.perfect_guess_so_far) q hq c vA hvA with
    ⟨v2, hv2, hlen2, hmono2⟩
  refine ⟨v2, ?_, by rw [hlen2, hlenA], fun i hi => hmonoA i (hmono2 i hi)⟩
  rw [← hg2]
  exact hv2

/-- C4 amended: across every sequence of `update` calls, a letter that has a
`Present` record keeps one of the same length, and no cell of it ever
transitions back to `Possible` (`Maybe`): a cell that is `Possible` afterwards
was already `Possible` before.  (The original claim's other two prohibitions
fail: a hit rewrites an `Absent` cell to `Confirmed`, and a present-elsewhere
feedback or another letter's hit rewrites a `Confirmed` cell to `Absent` —
see the counterexample.) -/
theorem C4_theorem (g : WordleGame) (l : List (List Char × List Char)) (g2 : WordleGame)
    (h : updateSeq g l = some g2) :
    ∀ c v, lookup g.information c = some (LetterInfo.Present v) →
      ∃ v2, lookup g2.information c = some (LetterInfo.Present v2) ∧
        v2.length = v.length ∧
        ∀ i : Nat, v2[i]? = some PresentTypes.Maybe → v[i]? = some PresentTypes.Maybe := by
  induction l generalizing g with
  | nil =>
    simp only [updateSeq, Option.some.injEq] at h
    rw [← h]
    exact fun c v hv => ⟨v, hv, rfl, fun i hi => hi⟩
  | cons x rest ih =>
    rcases x with ⟨w, r⟩
    simp only [updateSeq] at h
    rcases Option.bind_eq_some.mp h with ⟨gA, hA, hrest⟩
    intro c v hv
    rcases update_mono g w r gA hA c v hv with ⟨vA, hvA, hlenA, hmonoA⟩
    rcases ih gA hrest c vA hvA with ⟨v2, hv2, hlen2, hmono2⟩
    exact ⟨v2, hv2, by rw [hlen2, hlenA], fun i hi => hmonoA i (hmono2 i hi)⟩

/-- Witness for the amended C4 on a concrete two-update sequence. -/
theorem C4_witness :
    (updateSeq (⟨['*', '*'], [('a', LetterInfo.Present [PresentTypes.Maybe, PresentTypes.Maybe])], 2⟩ : WordleGame)
        [(['a', 'b'], ['n', 'n'])] =
      some (⟨['*', '*'],
        [('a', LetterInfo.Present [PresentTypes.No, PresentTypes.No]),
         ('b', LetterInfo.Absent)], 2⟩ : WordleGame) ∧
      lookup (⟨['*', '*'], [('a', LetterInfo.Present [PresentTypes.Maybe, PresentTypes.Maybe])], 2⟩ : WordleGame).information 'a' =
        some (LetterInfo.Present [PresentTypes.Maybe, PresentTypes.Maybe])) ∧
    ∃ v2, lookup (⟨['*', '*'],
        [('a', LetterInfo.Present [PresentTypes.No, PresentTypes.No]),
         ('b', LetterInfo.Absent)], 2⟩ : WordleGame).information 'a' =
          some (LetterInfo.Present v2) ∧
        v2.length = ([PresentTypes.Maybe, PresentTypes.Maybe] : List PresentTypes).length ∧
        ∀ i : Nat, v2[i]? = some PresentTypes.Maybe →
          ([PresentTypes.Maybe, PresentTypes.Maybe] : List PresentTypes)[i]? = some PresentTypes.Maybe :=
  ⟨⟨by decide, by decide⟩,
    C4_theorem
      (⟨['*', '*'], [('a', LetterInfo.Present [PresentTypes.Maybe, PresentTypes.Maybe])], 2⟩ : WordleGame)
      [(['a', 'b'], ['n', 'n'])]
      (⟨['*', '*'],
        [('a', LetterInfo.Present [PresentTypes.No, PresentTypes.No]),
         ('b', LetterInfo.Absent)], 2⟩ : WordleGame)
      (by decide) 'a' [PresentTypes.Maybe, PresentTypes.Maybe] (by decide)⟩

/-!  Claim C10 (amended): extra feedback symbols beyond the guess are ignored. -/

theorem enumZip_rs_take :
    ∀ (i : Nat) (w : List Char) (rs : List GuessResult),
      enumZip i w (rs.take w.length) = enumZip i w rs
  | _, [], rs => by simp [enumZip]
  | i, c :: cs, [] => by simp [enumZip]
  | i, c :: cs, r :: rs => by
    simp only [List.length_cons, List.take_succ_cons, enumZip]
    rw [enumZip_rs_take (i + 1) cs rs]

/-- C10 amended: `update` processes only the zipped prefix of guess and
feedback, so feedback symbols beyond the guess length are ignored:
`update(guess, feedback)` equals `update(guess, feedback.take guess.length)`.
(The symmetric truncation of a guess longer than the feedback does not hold:
the trailing guess characters are never processed per position, but they still
determine the length `new_word.len()` of the vector built by the
hit-on-absent promotion, and so can change the resulting state — see the
counterexample.) -/
theorem C10_theorem (g : WordleGame) (w r : List Char) :
    g.update w r = g.update w (r.take w.length) := by
  unfold WordleGame.update
  simp only [word_to_result]
  rw [List.map_take, enumZip_rs_take]

/-!  Machinery for claim C8: what one round of `update` guarantees about the
record of a letter `c`, per occurrence of `c` in the guess.  These facts make
the second identical round a per-letter no-op. -/

theorem clear_cell_ne_maybe (x : PresentTypes) : clear_cell x ≠ PresentTypes.Maybe := by
  cases x <;> simp [clear_cell]

/-- After a miss was merged for `c`, the record of `c` is `Absent` or a
`Present` vector with no `Maybe` among its first `num` cells. -/
def NMA (num : Nat) (c : Char) (info : Info) : Prop :=
  lookup info c = some LetterInfo.Absent ∨
    ∃ v, lookup info c = some (LetterInfo.Present v) ∧
      ∀ i : Nat, i < num → v[i]? ≠ some PresentTypes.Maybe

/-- What the record of `c` looks like after its occurrence at position `p`
with feedback `res` was merged (and any later positions of the same round
were merged on top). -/
def FactAt (num wordLen : Nat) (c : Char) (p : Nat) (res : GuessResult)
    (info : Info) : Prop :=
  match res with
  | .No => NMA num c info
  | .Somewhere =>
    lookup info c = some LetterInfo.Absent ∨
      ∃ v, lookup info c = some (LetterInfo.Present v) ∧ v[p]? = some PresentTypes.No
  | .Yes =>
    ∃ v, lookup info c = some (LetterInfo.Present v) ∧ v[p]? = some PresentTypes.Yes

theorem factAt_establish (num wordLen : Nat) (info info2 : Info) (p : Nat) (c : Char)
    (res : GuessResult) (h : processSpec num wordLen info p c res info2) :
    FactAt num wordLen c p res info2 := by
  unfold processSpec at h
  unfold FactAt
  cases hl : lookup info c with
  | none =>
    rw [hl] at h
    cases res <;> dsimp only at h ⊢
    case No =>
      left
      rw [h, lookup_setKey_self]
    case Somewhere =>
      right
      refine ⟨_, by rw [h.2, lookup_setKey_self], ?_⟩
      rw [List.getElem?_set_eq_of_lt _ (by simpa using h.1)]
    case Yes =>
      refine ⟨_, by rw [h.2, lookup_setKey_self], ?_⟩
      rw [List.getElem?_set_eq_of_lt _ (by simpa using h.1)]
  | some li =>
    rw [hl] at h
    cases li with
    | Absent =>
      cases res <;> dsimp only at h ⊢
      case No =>
        left
        rw [h, hl]
      case Somewhere =>
        left
        rw [h, hl]
      case Yes =>
        refine ⟨_, by rw [h.2, lookup_setKey_self], ?_⟩
        rw [List.getElem?_set_eq_of_lt _ (by simpa using h.1)]
    | Present v =>
      cases res <;> dsimp only at h ⊢
      case No =>
        rcases h with ⟨w, hcm, h2⟩
        right
        refine ⟨w, by rw [h2, lookup_setKey_self], ?_⟩
        intro i hi
        rw [clear_maybes_getElem num v w hcm i, if_pos hi]
        cases hv : v[i]? with
        | none => simp
        | some x => simp [clear_cell_ne_maybe]
      case Somewhere =>
        right
        refine ⟨_, by rw [h.2, lookup_setKey_self], ?_⟩
        rw [List.getElem?_set_eq_of_lt _ h.1]
      case Yes =>
        refine ⟨_, by rw [h.2, lookup_setKey_self], ?_⟩
        rw [List.getElem?_set_eq_of_lt _ h.1]

theorem factAt_step (num wordLen : Nat) (info info2 : Info) (position : Nat)
    (letter : Char) (result : GuessResult)
    (h : processSpec num wordLen info position letter result info2)
    (c : Char) (p : Nat) (res : GuessResult)
    (hq : position ≠ p) (hpw : p < wordLen)
    (hF : FactAt num wordLen c p res info) : FactAt num wordLen c p res info2 := by
  by_cases hc : c = letter
  case neg =>
    have hother := processSpec_other num wordLen info position letter result info2 h c hc
    unfold FactAt NMA at hF ⊢
    cases res <;> dsimp only at hF ⊢ <;> rw [hother] <;> exact hF
  case pos =>
    subst hc
    unfold processSpec at h
    unfold FactAt at hF ⊢
    cases res with
    | No =>
      unfold NMA at hF ⊢
      rcases hF with hA | ⟨v, hv, hnm⟩
      · rw [hA] at h
        cases result <;> dsimp only at h
        case No => left; rw [h, hA]
        case Somewhere => left; rw [h, hA]
        case Yes =>
          right
          refine ⟨_, by rw [h.2, lookup_setKey_self], ?_⟩
          intro i _
          by_cases hip : position = i
          · subst hip
            rw [List.getElem?_set_eq_of_lt _ (by simpa using h.1)]
            simp
          · rw [List.getElem?_set_ne hip]
            cases Nat.lt_or_ge i wordLen with
            | inl hlt => rw [List.getElem?_replicate]; simp [hlt]
            | inr hge => rw [List.getElem?_eq_none (by simpa using hge)]; simp
      · rw [hv] at h
        cases result <;> dsimp only at h
        case No =>
          rcases h with ⟨w, hcm, h2⟩
          right
          refine ⟨w, by rw [h2, lookup_setKey_self], ?_⟩
          intro i hi
          rw [clear_maybes_getElem num v w hcm i, if_pos hi]
          cases hvx : v[i]? with
          | none => simp
          | some x => simp [clear_cell_ne_maybe]
        case Somewhere =>
          right
          refine ⟨_, by rw [h.2, lookup_setKey_self], ?_⟩
          intro i hi
          by_cases hip : position = i
          · subst hip
            rw [List.getElem?_set_eq_of_lt _ h.1]
            simp
          · rw [List.getElem?_set_ne hip]
            exact hnm i hi
        case Yes =>
          right
          refine ⟨_, by rw [h.2, lookup_setKey_self], ?_⟩
          intro i hi
          by_cases hip : position = i
          · subst hip
            rw [List.getElem?_set_eq_of_lt _ h.1]
            simp
          · rw [List.getElem?_set_ne hip]
            exact hnm i hi
    | Somewhere =>
      rcases hF with hA | ⟨v, hv, hno⟩
      · rw [hA] at h
        cases result <;> dsimp only at h
        case No => left; rw [h, hA]
        case Somewhere => left; rw [h, hA]
        case Yes =>
          right
          refine ⟨_, by rw [h.2, lookup_setKey_self], ?_⟩
          rw [List.getElem?_set_ne (fun he => hq he)]
          rw [List.getElem?_replicate]
          simp [hpw]
      · rw [hv] at h
        cases result <;> dsimp only at h
        case No =>
          rcases h with ⟨w, hcm, h2⟩
          right
          refine ⟨w, by rw [h2, lookup_setKey_self], ?_⟩
          rw [clear_maybes_getElem num v w hcm p]
          by_cases hpn : p < num
          · rw [if_pos hpn, hno]
            simp [clear_cell]
          · rw [if_neg hpn]
            exact hno
        case Somewhere =>
          right
          refine ⟨_, by rw [h.2, lookup_setKey_self], ?_⟩
          rw [List.getElem?_set_ne (fun he => hq he)]
          exact hno
        case Yes =>
          right
          refine ⟨_, by rw [h.2, lookup_setKey_self], ?_⟩
          rw [List.getElem?_set_ne (fun he => hq he)]
          exact hno
    | Yes =>
      rcases hF with ⟨v, hv, hyes⟩
      rw [hv] at h
      cases result <;> dsimp only at h
      case No =>
        rcases h with ⟨w, hcm, h2⟩
        refine ⟨w, by rw [h2, lookup_setKey_self], ?_⟩
        rw [clear_maybes_getElem num v w hcm p]
        by_cases hpn : p < num
        · rw [if_pos hpn, hyes]
          simp [clear_cell]
        · rw [if_neg hpn]
          exact hyes
      case Somewhere =>
        refine ⟨_, by rw [h.2, lookup_setKey_self], ?_⟩
        rw [List.getElem?_set_ne (fun he => hq he)]
        exact hyes
      case Yes =>
        refine ⟨_, by rw [h.2, lookup_setKey_self], ?_⟩
        rw [List.getElem?_set_ne (fun he => hq he)]
        exact hyes

theorem factAt_sok (st st2 : Info × List Char) (pos : Nat) (letter : Char)
    (h : set_other_keys st pos letter = some st2)
    (num wordLen : Nat) (c : Char) (p : Nat) (res : GuessResult)
    (hcond : letter ≠ c → pos ≠ p)
    (hF : FactAt num wordLen c p res st.1) : FactAt num wordLen c p res st2.1 := by
  rcases sok_inv st pos letter st2 h with ⟨_, _, hst2⟩
  have hlk : lookup st2.1 c = (lookup st.1 c).map (sok_val pos letter c) := by
    rw [hst2]
    exact lookup_map_sok pos letter st.1 c
  by_cases hc : c = letter
  · have heq : lookup st2.1 c = lookup st.1 c := by
      rw [hlk]
      cases lookup st.1 c with
      | none => rfl
      | some x => simp [sok_val, hc]
    unfold FactAt NMA at hF ⊢
    cases res <;> dsimp only at hF ⊢ <;> rw [heq] <;> exact hF
  · have hpos : pos ≠ p := hcond fun he => hc he.symm
    unfold FactAt NMA at hF ⊢
    cases res with
    | No =>
      rcases hF with hA | ⟨v, hv, hnm⟩
      · left
        rw [hlk, hA]
        simp [sok_val, hc]
      · right
        refine ⟨v.set pos .No, by rw [hlk, hv]; simp [sok_val, hc], ?_⟩
        intro i hi
        by_cases hip : pos = i
        · subst hip
          by_cases hl2 : pos < v.length
          · rw [List.getElem?_set_eq_of_lt _ hl2]
            simp
          · rw [List.set_eq_of_length_le (by omega)]
            exact hnm _ hi
        · rw [List.getElem?_set_ne hip]
          exact hnm i hi
    | Somewhere =>
      rcases hF with hA | ⟨v, hv, hno⟩
      · left
        rw [hlk, hA]
        simp [sok_val, hc]
      · right
        refine ⟨v.set pos .No, by rw [hlk, hv]; simp [sok_val, hc], ?_⟩
        rw [List.getElem?_set_ne hpos]
        exact hno
    | Yes =>
      rcases hF with ⟨v, hv, hyes⟩
      refine ⟨v.set pos .No, by rw [hlk, hv]; simp [sok_val, hc], ?_⟩
      rw [List.getElem?_set_ne hpos]
      exact hyes

theorem runFlags_preserve_fact (num wordLen : Nat) (c : Char) (p : Nat) (res : GuessResult) :
    ∀ (fl : List (Char × Nat)) (st st2 : Info × List Char),
      runFlags st fl = some st2 →
      (∀ x ∈ fl, x.1 ≠ c → x.2 ≠ p) →
      FactAt num wordLen c p res st.1 → FactAt num wordLen c p res st2.1
  | [], st, st2, h, _, hF => by
    simp only [runFlags, Option.some.injEq] at h
    rw [← h]
    exact hF
  | (letter, pos) :: rest, st, st2, h, hcond, hF => by
    simp only [runFlags] at h
    rcases Option.bind_eq_some.mp h with ⟨stA, hA, hrest⟩
    exact runFlags_preserve_fact num wordLen c p res rest stA st2 hrest
      (fun x hx => hcond x (List.mem_cons_of_mem _ hx))
      (factAt_sok st stA pos letter hA num wordLen c p res
        (fun hne => hcond (letter, pos) (List.mem_cons_self _ _) hne) hF)

theorem runLoop_preserve_fact (num wordLen : Nat) (c : Char) (p : Nat) (res : GuessResult)
    (hpw : p < wordLen) :
    ∀ (pairs : List ((Nat × Char) × GuessResult)) (st st2 : Info × List (Char × Nat)),
      runLoop num wordLen st pairs = some st2 →
      (∀ x ∈ pairs, x.1.1 ≠ p) →
      FactAt num wordLen c p res st.1 → FactAt num wordLen c p res st2.1
  | [], st, st2, h, _, hF => by
    simp only [runLoop, Option.some.injEq] at h
    rw [← h]
    exact hF
  | ((p0, c0), r0) :: rest, st, st2, h, hcond, hF => by
    simp only [runLoop] at h
    rcases Option.bind_eq_some.mp h with ⟨stA, hA, hrest⟩
    rcases stA with ⟨infoA, flagsA⟩
    have hinv := processOne_inv num wordLen st.1 st.2 p0 c0 r0 infoA flagsA hA
    exact runLoop_preserve_fact num wordLen c p res hpw rest (infoA, flagsA) st2 hrest
      (fun x hx => hcond x (List.mem_cons_of_mem _ hx))
      (factAt_step num wordLen st.1 infoA p0 c0 r0 hinv.2 c p res
        (hcond ((p0, c0), r0) (List.mem_cons_self _ _)) hpw hF)

theorem enumZip_pos_inj :
    ∀ (i : Nat) (w : List Char) (rs : List GuessResult)
      (x y : (Nat × Char) × GuessResult),
      x ∈ enumZip i w rs → y ∈ enumZip i w rs → x.1.1 = y.1.1 → x = y
  | _, [], _, x, _, hx, _, _ => by simp [enumZip] at hx
  | _, _ :: _, [], x, _, hx, _, _ => by simp [enumZip] at hx
  | i, c0 :: cs, r0 :: rs, x, y, hx, hy, hxy => by
    simp only [enumZip, List.mem_cons] at hx hy
    rcases hx with hx | hx <;> rcases hy with hy | hy
    · rw [hx, hy]
    · exfalso
      subst hx
      have h1 := (enumZip_mem_pos (i + 1) cs rs y hy).1
      simp at hxy
      omega
    · exfalso
      subst hy
      have h1 := (enumZip_mem_pos (i + 1) cs rs x hx).1
      simp at hxy
      omega
    · exact enumZip_pos_inj (i + 1) cs rs x y hx hy hxy

theorem enumZip_mem_getElem :
    ∀ (i : Nat) (w : List Char) (rs : List GuessResult) (x : (Nat × Char) × GuessResult),
      x ∈ enumZip i w rs →
      ∃ k, x.1.1 = i + k ∧ w[k]? = some x.1.2 ∧ rs[k]? = some x.2
  | _, [], _, x, hx => by simp [enumZip] at hx
  | _, _ :: _, [], x, hx => by simp [enumZip] at hx
  | i, c0 :: cs, r0 :: rs, x, hx => by
    simp only [enumZip, List.mem_cons] at hx
    rcases hx with hx | hx
    · subst hx
      exact ⟨0, by simp, by simp, by simp⟩
    · rcases enumZip_mem_getElem (i + 1) cs rs x hx with ⟨k, hk, hw, hr⟩
      exact ⟨k + 1, by omega, by simpa using hw, by simpa using hr⟩

theorem runLoop_establish (num : Nat) (c : Char) :
    ∀ (i : Nat) (w : List Char) (rs : List GuessResult) (wordLen : Nat)
      (st st2 : Info × List (Char × Nat)),
      runLoop num wordLen st (enumZip i w rs) = some st2 →
      (∀ x ∈ enumZip i w rs, x.1.1 < wordLen) →
      ∀ p res, ((p, c), res) ∈ enumZip i w rs → FactAt num wordLen c p res st2.1
  | _, [], rs, wordLen, st, st2, _, _, p, res => by
    intro hm
    simp [enumZip] at hm
  | _, _ :: _, [], wordLen, st, st2, _, _, p, res => by
    intro hm
    simp [enumZip] at hm
  | i, c0 :: cs, r0 :: rs, wordLen, st, st2, h, hposw, p, res => by
    intro hm
    simp only [enumZip, runLoop] at h
    rcases Option.bind_eq_some.mp h with ⟨stA, hA, hrest⟩
    rcases stA with ⟨infoA, flagsA⟩
    have hinv := processOne_inv num wordLen st.1 st.2 i c0 r0 infoA flagsA hA
    simp only [enumZip, List.mem_cons] at hm
    rcases hm with hm | hm
    · have hp : p = i := congrArg (fun y => y.1.1) hm
      have hc0 : c = c0 := congrArg (fun y => y.1.2) hm
      have hr0 : res = r0 := congrArg (fun y => y.2) hm
      subst hp
      subst hc0
      subst hr0
      have hEst : FactAt num wordLen c p res infoA :=
        factAt_establish num wordLen st.1 infoA p c res hinv.2
      have hppos : p < wordLen := by
        have := hposw ((p, c), res) (List.mem_cons_self _ _)
        simpa using this
      refine runLoop_preserve_fact num wordLen c p res hppos (enumZip (p + 1) cs rs)
        (infoA, flagsA) st2 hrest ?_ hEst
      intro x hx
      have := (enumZip_mem_pos (p + 1) cs rs x hx).1
      omega
    · exact runLoop_establish num c (i + 1) cs rs wordLen (infoA, flagsA) st2 hrest
        (fun x hx => hposw x (List.mem_cons_of_mem _ hx)) p res hm

theorem runLoop_noop (num wordLen : Nat) (c : Char) (info1 : Info) :
    ∀ (i : Nat) (w : List Char) (rs : List GuessResult)
      (st st2 : Info × List (Char × Nat)),
      runLoop num wordLen st (enumZip i w rs) = some st2 →
      lookup st.1 c = lookup info1 c →
      (∀ p res, ((p, c), res) ∈ enumZip i w rs → FactAt num wordLen c p res info1) →
      lookup st2.1 c = lookup info1 c
  | _, [], rs, st, st2, h, heq, _ => by
    simp only [enumZip, runLoop, Option.some.injEq] at h
    rw [← h]
    exact heq
  | _, _ :: _, [], st, st2, h, heq, _ => by
    simp only [enumZip, runLoop, Option.some.injEq] at h
    rw [← h]
    exact heq
  | i, c0 :: cs, r0 :: rs, st, st2, h, heq, hFacts => by
    simp only [enumZip, runLoop] at h
    rcases Option.bind_eq_some.mp h with ⟨stA, hA, hrest⟩
    rcases stA with ⟨infoA, flagsA⟩
    have hspec := (processOne_inv num wordLen st.1 st.2 i c0 r0 infoA flagsA hA).2
    have hAeq : lookup infoA c = lookup info1 c := by
      by_cases hc : c = c0
      case neg =>
        rw [processSpec_other num wordLen st.1 i c0 r0 infoA hspec c hc]
        exact heq
      case pos =>
        subst hc
        have hF := hFacts i r0 (List.mem_cons_self _ _)
        unfold processSpec at hspec
        unfold FactAt at hF
        cases r0 with
        | No =>
          unfold NMA at hF
          rcases hF with hAb | ⟨v, hv, hnm⟩
          · rw [heq, hAb] at hspec
            dsimp only at hspec
            rw [hspec]
            exact heq
          · rw [heq, hv] at hspec
            dsimp only at hspec
            rcases hspec with ⟨w0, hcm, hset⟩
            have hwv : w0 = v := by
              apply List.ext_getElem?
              intro j
              rw [clear_maybes_getElem num v w0 hcm j]
              by_cases hj : j < num
              · rw [if_pos hj]
                cases hvj : v[j]? with
                | none => rfl
                | some x =>
                  have hxm : x ≠ PresentTypes.Maybe := by
                    intro hxe
                    exact (hnm j hj) (by rw [hvj, hxe])
                  simp [clear_cell_of_ne x hxm]
              · rw [if_neg hj]
            rw [hset, lookup_setKey_self, hwv, ← hv]
        | Somewhere =>
          rcases hF with hAb | ⟨v, hv, hno⟩
          · rw [heq, hAb] at hspec
            dsimp only at hspec
            rw [hspec]
            exact heq
          · rw [heq, hv] at hspec
            dsimp only at hspec
            have hvs : v.set i PresentTypes.No = v := set_getElem?_self v i _ hno
            rw [hspec.2, lookup_setKey_self, hvs, ← hv]
        | Yes =>
          rcases hF with ⟨v, hv, hyes⟩
          rw [heq, hv] at hspec
          dsimp only at hspec
          have hvs : v.set i PresentTypes.Yes = v := set_getElem?_self v i _ hyes
          rw [hspec.2, lookup_setKey_self, hvs, ← hv]
    exact runLoop_noop num wordLen c info1 (i + 1) cs rs (infoA, flagsA) st2 hrest hAeq
      (fun p res hm => hFacts p res (List.mem_cons_of_mem _ hm))

theorem runFlags_noop (c : Char) (info1 : Info) :
    ∀ (fl : List (Char × Nat)) (st st2 : Info × List Char),
      runFlags st fl = some st2 →
      lookup st.1 c = lookup info1 c →
      (∀ x ∈ fl, x.1 ≠ c → ∀ v, lookup info1 c = some (LetterInfo.Present v) →
        v[x.2]? = some PresentTypes.No) →
      lookup st2.1 c = lookup info1 c
  | [], st, st2, h, heq, _ => by
    simp only [runFlags, Option.some.injEq] at h
    rw [← h]
    exact heq
  | (letter, pos) :: rest, st, st2, h, heq, hcond => by
    simp only [runFlags] at h
    rcases Option.bind_eq_some.mp h with ⟨stA, hA, hrest⟩
    rcases sok_inv st pos letter stA hA with ⟨_, _, hstA⟩
    have hAeq : lookup stA.1 c = lookup info1 c := by
      have hlk : lookup stA.1 c = (lookup st.1 c).map (sok_val pos letter c) := by
        rw [hstA]
        exact lookup_map_sok pos letter st.1 c
      rw [hlk, heq]
      by_cases hc : c = letter
      · cases lookup info1 c with
        | none => rfl
        | some x => simp [sok_val, hc]
      · cases hl : lookup info1 c with
        | none => rfl
        | some x =>
          cases x with
          | Absent => simp [sok_val, hc]
          | Present v =>
            have hno := hcond (letter, pos) (List.mem_cons_self _ _)
              (fun he => hc he.symm) v hl
            have hvs : v.set pos PresentTypes.No = v := set_getElem?_self v pos _ hno
            simp [sok_val, hc, hvs]
    exact runFlags_noop c info1 rest stA st2 hrest hAeq
      (fun x hx => hcond x (List.mem_cons_of_mem _ hx))

/-!  Claim C8: running the same `update` twice leaves the record of a letter
that received a miss unchanged after the second call. -/

/-- C8: calling `update` a second time with the same guess and feedback, where
some letter `c` of the guess receives a miss (`'n'`), leaves `letters[c]`
unchanged after the second call.  (In particular a miss for a letter already
recorded `Absent` is a no-op on that record.) -/
theorem C8_theorem (g : WordleGame) (w r : List Char) (g1 g2 : WordleGame)
    (c : Char) (p : Nat)
    (h1 : g.update w r = some g1) (h2 : g1.update w r = some g2)
    (hpw : w[p]? = some c) (hres : (word_to_result r)[p]? = some GuessResult.No) :
    lookup g2.information c = lookup g1.information c := by
  have h1' := h1
  unfold WordleGame.update at h1
  rcases Option.bind_eq_some.mp h1 with ⟨st1, hloop1, hb1⟩
  rcases Option.map_eq_some'.mp hb1 with ⟨q1, hfl1, hg1⟩
  have hposw : ∀ x ∈ enumZip 0 w (word_to_result r), x.1.1 < w.length := by
    intro x hx
    have := enumZip_mem_pos 0 w (word_to_result r) x hx
    omega
  have hFactsLoop : ∀ p0 res0, ((p0, c), res0) ∈ enumZip 0 w (word_to_result r) →
      FactAt g.num w.length c p0 res0 st1.1 :=
    fun p0 res0 hm => runLoop_establish g.num c 0 w (word_to_result r) w.length
      (g.information, []) st1 hloop1 hposw p0 res0 hm
  have hflagsEq : st1.2 = yesFlags (enumZip 0 w (word_to_result r)) := by
    have := runLoop_flags g.num w.length _ (g.information, []) st1 hloop1
    simpa using this
  have hflcond : ∀ p0 res0, ((p0, c), res0) ∈ enumZip 0 w (word_to_result r) →
      ∀ x ∈ st1.2, x.1 ≠ c → x.2 ≠ p0 := by
    intro p0 res0 hm x hx hxc hxe
    rw [hflagsEq] at hx
    have hxm := yesFlags_mem _ x hx
    have hinj : ((x.2, x.1), GuessResult.Yes) = ((p0, c), res0) :=
      enumZip_pos_inj 0 w (word_to_result r) _ _ hxm hm (by simpa using hxe)
    apply hxc
    have := congrArg (fun y => y.1.2) hinj
    simpa using this
  have hFacts1 : ∀ p0 res0, ((p0, c), res0) ∈ enumZip 0 w (word_to_result r) →
      FactAt g.num w.length c p0 res0 q1.1 :=
    fun p0 res0 hm => runFlags_preserve_fact g.num w.length c p0 res0 st1.2
      (st1.1, g.perfect_guess_so_far) q1 hfl1 (hflcond p0 res0 hm) (hFactsLoop p0 res0 hm)
  have hg1info : g1.information = q1.1 := by rw [← hg1]
  have hg1num : g1.num = g.num := by rw [← hg1]
  unfold WordleGame.update at h2
  rcases Option.bind_eq_some.mp h2 with ⟨st2', hloop2, hb2⟩
  rcases Option.map_eq_some'.mp hb2 with ⟨q2, hfl2, hg2⟩
  rw [hg1num, hg1info] at hloop2
  have hnoop1 : lookup st2'.1 c = lookup q1.1 c :=
    runLoop_noop g.num w.length c q1.1 0 w (word_to_result r) (q1.1, []) st2'
      hloop2 rfl hFacts1
  have hflagsEq2 : st2'.2 = yesFlags (enumZip 0 w (word_to_result r)) := by
    have := runLoop_flags g.num w.length _ (q1.1, []) st2' hloop2
    simpa using this
  have hexcl : ∀ x ∈ st2'.2, x.1 ≠ c →
      ∀ v, lookup q1.1 c = some (LetterInfo.Present v) → v[x.2]? = some PresentTypes.No := by
    intro x hx hxc v hv
    rw [hflagsEq2] at hx
    have hxm := yesFlags_mem _ x hx
    rcases enumZip_mem_getElem 0 w (word_to_result r) _ hxm with ⟨k, hk, hwk, hrk⟩
    have hk2 : x.2 = k := by simpa using hk
    have hE := update_excl g w r g1 k x.1 h1' (by simpa using hwk) (by simpa using hrk)
    have hvc : lookup g1.information c = some (LetterInfo.Present v) := by
      rw [hg1info]
      exact hv
    have := hE.2 c (Ne.symm hxc) v hvc
    rw [hk2]
    exact this
  have hnoop2 : lookup q2.1 c = lookup q1.1 c :=
    runFlags_noop c q1.1 st2'.2 (st2'.1, g1.perfect_guess_so_far) q2 hfl2 hnoop1 hexcl
  have hg2info : g2.information = q2.1 := by rw [← hg2]
  rw [hg2info, hg1info]
  exact hnoop2

/-- Witness for C8: repeating `update("ab", "ny")` on a fresh length-2 store;
letter `'a'` receives a miss both times and its record is unchanged by the
second call. -/
theorem C8_witness :
    ((WordleGame.init 2).update ['a', 'b'] ['n', 'y'] =
        some (⟨['*', 'b'],
          [('a', LetterInfo.Absent),
           ('b', LetterInfo.Present [PresentTypes.Maybe, PresentTypes.Yes])], 2⟩ : WordleGame) ∧
      (⟨['*', 'b'],
          [('a', LetterInfo.Absent),
           ('b', LetterInfo.Present [PresentTypes.Maybe, PresentTypes.Yes])], 2⟩ : WordleGame).update
          ['a', 'b'] ['n', 'y'] =
        some (⟨['*', 'b'],
          [('a', LetterInfo.Absent),
           ('b', LetterInfo.Present [PresentTypes.Maybe, PresentTypes.Yes])], 2⟩ : WordleGame) ∧
      (['a', 'b'] : List Char)[0]? = some 'a' ∧
      (word_to_result ['n', 'y'])[0]? = some GuessResult.No) ∧
    lookup (⟨['*', 'b'],
      [('a', LetterInfo.Absent),
       ('b', LetterInfo.Present [PresentTypes.Maybe, PresentTypes.Yes])], 2⟩ : WordleGame).information 'a' =
      lookup (⟨['*', 'b'],
        [('a', LetterInfo.Absent),
         ('b', LetterInfo.Present [PresentTypes.Maybe, PresentTypes.Yes])], 2⟩ : WordleGame).information 'a' :=
  ⟨⟨by decide, by decide, by decide, by decide⟩,
    C8_theorem (WordleGame.init 2) ['a', 'b'] ['n', 'y']
      (⟨['*', 'b'],
        [('a', LetterInfo.Absent),
         ('b', LetterInfo.Present [PresentTypes.Maybe, PresentTypes.Yes])], 2⟩ : WordleGame)
      (⟨['*', 'b'],
        [('a', LetterInfo.Absent),
         ('b', LetterInfo.Present [PresentTypes.Maybe, PresentTypes.Yes])], 2⟩ : WordleGame)
      'a' 0 (by decide) (by decide) (by decide) (by decide)⟩
